import Mathlib

/-!
# Verification of the Opus CELT bitstream decoder core

Shallow embedding of `src/entropy.rs` (range decoder) and
`src/src/celt/decoder.rs` (CELT frame decoder) of the `opus` repository,
with theorems settling the frozen claims about the specification.

Modelling conventions:
* `usize` is modelled as `Nat`; at the sites where the Rust code can
  underflow a `usize` subtraction we use `usub` (two's-complement wrap
  mod `2^64`, the release-build semantics).  Where the embedded code is
  known not to underflow we use plain `Nat` subtraction.
* `i32` quantities of the allocator are modelled as `Int` (all values
  that occur are far below `2^31`, so no wrap is needed).
* `f32` energies and gains are modelled as exact rationals `ℚ`.  Every
  concrete floating-point fact proved below only involves computations
  that are exact in `f32` as well (products with zero, integer values).
* Collaborator crates that are not part of `src/` (the forward/backward
  bit cursors of `bitstream`, `ilog` and `decode_laplace` of `maths`,
  and the `available`/`available_frac`/`to_end` helpers used by the
  decoder) are modelled from the spec; each such definition carries a
  doc comment starting with `Modelled from the spec:`.  `decode_laplace`
  is kept as an explicit function parameter, since the spec prescribes
  no algorithm for it.
* Rust panics (array out of bounds, division by zero, the
  `assert_ne!(self.range, 0)` in `update`, debug-checked subtraction
  where the value genuinely can go negative) are modelled by `Option`:
  a result of `none` means the Rust code panics.
-/

namespace Opus

/-- The `usize` modulus. -/
def USIZE : Nat := 2 ^ 64

/-- Wrapping `usize` subtraction (release-build semantics of `a - b`). -/
def usub (a b : Nat) : Nat := (a + (USIZE - b % USIZE)) % USIZE

/-! ## Bit cursors

Modelled from the spec: the low-level bit-reading primitives live in the
out-of-scope `bitstream` collaborator crate.  The spec describes them as
"two read-only indices into one borrowed slice": a forward big-endian
bit cursor feeding the arithmetic decoder and a backward little-endian
bit cursor feeding `rawbits`.  Reads past either end return zero bits.
The backward cursor model is validated against the test vector embedded
in `src/entropy.rs` (see `revBits_testvec` below). -/

/-- Byte `i` of the buffer (zero past the end; bytes are taken mod 256). -/
def byteAt (buf : List Nat) (i : Nat) : Nat := buf.getD i 0 % 256

/-- Modelled from the spec: bit `i` of the forward big-endian cursor. -/
def fwdBit (buf : List Nat) (i : Nat) : Nat :=
  byteAt buf (i / 8) >>> (7 - i % 8) &&& 1

/-- Modelled from the spec: read `n` bits at bit position `pos` from the
forward big-endian cursor (`BitReadBE::get_bits_32`). -/
def fwdBits (buf : List Nat) (pos : Nat) : Nat → Nat
  | 0 => 0
  | n + 1 => fwdBits buf pos n * 2 + fwdBit buf (pos + n)

/-- Modelled from the spec: bit `k` (counting from the tail of the buffer,
least-significant bit of the last byte first) of the backward cursor. -/
def revBit (buf : List Nat) (k : Nat) : Nat :=
  if k / 8 < buf.length then
    byteAt buf (buf.length - 1 - k / 8) >>> (k % 8) &&& 1
  else 0

/-- Modelled from the spec: read `n` bits at backward bit position `pos`
from the tail cursor (`ReverseBitReadLE::get_bits_32`), LSB first. -/
def revBits (buf : List Nat) (pos : Nat) : Nat → Nat
  | 0 => 0
  | n + 1 => revBits buf pos n + (revBit buf (pos + n) <<< n)

/-- Fuel-bounded binary recursion computing `⌊log2 n⌋` (for `n ≥ 1` and
fuel at least `n`); structural in the fuel so that it evaluates inside
the kernel. -/
def ilogGo : Nat → Nat → Nat
  | 0, _ => 0
  | fuel + 1, n => if n ≤ 1 then 0 else ilogGo fuel (n / 2) + 1

/-- Modelled from the spec: `maths::ilog`, the integer base-2 logarithm
used throughout (`ilog n = ⌊log2 n⌋ + 1` for positive `n`, `ilog 0 = 0`,
i.e. the number of significant bits). -/
def ilog (n : Nat) : Nat := if n = 0 then 0 else ilogGo n n + 1

/-! ## The range decoder (`src/entropy.rs`) -/

/-- State of `RangeDecoder`: the shared byte buffer, the forward bit
position (`bits` cursor), the backward bit position (`revs` cursor), and
the `range`/`value`/`total` fields. -/
structure RState where
  buf : List Nat
  fpos : Nat
  rpos : Nat
  range : Nat
  value : Nat
  total : Nat
  deriving Repr, DecidableEq

def SYM_BITS : Nat := 8
def SYM_MAX : Nat := (1 <<< SYM_BITS) - 1
def CODE_BITS : Nat := 32
def CODE_SHIFT : Nat := CODE_BITS - SYM_BITS - 1
def CODE_TOP : Nat := 1 <<< (CODE_BITS - 1)
def CODE_BOT : Nat := CODE_TOP >>> SYM_BITS
def CODE_EXTRA : Nat := (CODE_BITS - 2) % SYM_BITS + 1

namespace RangeDecoder

/-- One conditional step of `normalize`'s `while` loop, with fuel.
The Rust loop runs while `range <= CODE_BOT`; from any positive `range`
at most three iterations run, so fuel 24 is never exhausted in reachable
states (see `normGo_fixed`).  The byte pulled from the forward cursor is
XORed with `SYM_MAX`; the `& (CODE_TOP - 1)` mask is written `% CODE_TOP`
(`CODE_TOP` is a power of two). -/
def normGo : Nat → RState → RState
  | 0, s => s
  | fuel + 1, s =>
      if s.range ≤ CODE_BOT then
        let v := fwdBits s.buf s.fpos SYM_BITS ^^^ SYM_MAX
        normGo fuel
          { s with fpos := s.fpos + SYM_BITS,
                   value := (s.value <<< SYM_BITS ||| v) % CODE_TOP,
                   range := s.range <<< SYM_BITS,
                   total := s.total + SYM_BITS }
      else s

/-- `RangeDecoder::normalize`. -/
def normalize (s : RState) : RState := normGo 24 s

/-- `RangeDecoder::new`: read the 7-bit seed, set `value = 127 - seed`,
`range = 128`, `total = CODE_BITS + 1`, then normalize. -/
def new (buf : List Nat) : RState :=
  let seed := fwdBits buf 0 7
  normalize
    { buf := buf, fpos := 7, rpos := 0, range := 128,
      value := 127 - seed, total := CODE_BITS + 1 }

/-- `RangeDecoder::update`.  `none` models a panic: `total - high` or
`value - s` or `range - s` underflowing in Rust, or the
`assert_ne!(self.range, 0)` firing.  (`s = scale * (total - high)` and
the `low != 0` conditional are inlined.) -/
def update (s : RState) (scale low high total : Nat) : Option RState :=
  if high ≤ total then
    if scale * (total - high) ≤ s.value then
      if scale * (total - high) ≤ s.range ∨ low ≠ 0 then
        if (if low ≠ 0 then scale * (high - low)
            else s.range - scale * (total - high)) = 0 then none
        else some (normalize
          { s with value := s.value - scale * (total - high),
                   range := if low ≠ 0 then scale * (high - low)
                            else s.range - scale * (total - high) })
      else none
    else none
  else none

/-- `RangeDecoder::get_scale_symbol`.  `none` models division by zero. -/
def get_scale_symbol (s : RState) (total : Nat) : Option (Nat × Nat) :=
  if total = 0 then none
  else
    let scale := s.range / total
    if scale = 0 then none
    else some (scale, total - min (s.value / scale + 1) total)

/-- `RangeDecoder::decode_logp`. -/
def decode_logp (s : RState) (logp : Nat) : Bool × RState :=
  let scale := s.range >>> logp
  if s.value < scale then
    (true, normalize { s with range := scale })
  else
    (false, normalize { s with range := s.range - scale, value := s.value - scale })

end RangeDecoder

/-- `ICDFContext`: total frequency plus cumulative distribution bounds. -/
structure ICDFContext where
  total : Nat
  dist : List Nat
  deriving Repr, DecidableEq

namespace RangeDecoder

/-- `RangeDecoder::decode_icdf`.  `none` models a panic (the `unwrap` on
`position`, or a panic inside `get_scale_symbol`/`update`). -/
def decode_icdf (s : RState) (icdf : ICDFContext) : Option (Nat × RState) := do
  let (scale, sym) ← get_scale_symbol s icdf.total
  match icdf.dist.findIdx? (fun v => sym < v) with
  | none => none
  | some k =>
      let high := icdf.dist.getD k 0
      let low := if k > 0 then icdf.dist.getD (k - 1) 0 else 0
      let s' ← update s scale low high icdf.total
      pure (k, s')

/-- `RangeDecoder::tell`. -/
def tell (s : RState) : Nat := s.total - ilog s.range

/-- One refinement step of `tell_frac`'s fixed-point loop. -/
def tellStep (p : Nat × Nat) : Nat × Nat :=
  let lg := p.1
  let rq15 := (p.2 * p.2) >>> (lg - 16)
  let lastbit := rq15 >>> 16
  let lg' := lg * 2 + lastbit
  if lastbit ≠ 0 then (lg', rq15 >>> 1) else (lg', rq15)

/-- `RangeDecoder::tell_frac` (three refinement iterations, exactly as
written in the source, including its use of the updated `lg` as the
shift amount inside the loop). -/
def tell_frac (s : RState) : Nat :=
  let lg := ilog s.range
  let rq15 := s.range >>> (lg - 16)
  let r := tellStep (tellStep (tellStep (lg, rq15)))
  usub (s.total * 8) r.1

/-- `CeltOnly::rawbits`: raw bits from the backward cursor. -/
def rawbits (s : RState) (len : Nat) : Nat × RState :=
  (revBits s.buf s.rpos len, { s with rpos := s.rpos + len })

def UNI_BITS : Nat := 8

/-- `CeltOnly::decode_uniform`.  `none` models the `len = 0` underflow
panic of `len - 1` or a panic in `get_scale_symbol`/`update`. -/
def decode_uniform (s : RState) (len : Nat) : Option (Nat × RState) :=
  if len = 0 then none
  else
    let bits := ilog (len - 1)
    let total := if bits > UNI_BITS then ((len - 1) >>> (bits - UNI_BITS)) + 1
                 else len
    do
      let (scale, k) ← get_scale_symbol s total
      let s' ← update s scale k (k + 1) total
      if bits > UNI_BITS then
        let (r, s'') := rawbits s' (bits - UNI_BITS)
        pure (k <<< (bits - UNI_BITS) ||| r, s'')
      else
        pure (k, s')

/-- Modelled from the spec: `available()` derives the remaining whole-bit
budget from `total` (buffer size in bits minus `tell()`). -/
def available (s : RState) : Nat := usub (s.buf.length * 8) (tell s)

/-- Modelled from the spec: `available_frac()` derives the remaining
budget in 1/8-bit units from `total` (buffer size in eighth-bits minus
`tell_frac()`). -/
def available_frac (s : RState) : Nat :=
  usub (s.buf.length * 8 * 8) (tell_frac s)

/-- Modelled from the spec: `to_end()` fast-forwards the decoder to the
end of the buffer ("Pretend we are at the end of the buffer"), growing
`total` by the remaining budget. -/
def to_end (s : RState) : RState := { s with total := s.total + available s }

end RangeDecoder

namespace RangeDecoder

/-- The strengthened state invariant: normalized `range` and
`value < range` (the latter is what makes `decode_logp 0` return true
and keeps `range` positive). -/
def Inv (s : RState) : Prop :=
  CODE_BOT < s.range ∧ s.range ≤ CODE_TOP ∧ s.value < s.range

/-- States reachable from `RangeDecoder::new` through the decode
operations (for `decode_icdf` with a valid table — strictly more tables
than the program ever passes — and `decode_uniform` with positive
length, as in all call sites). -/
inductive Reachable : RState → Prop
  | mk_new (buf : List Nat) : Reachable (new buf)
  | step_logp {s : RState} (logp : Nat) : Reachable s →
      Reachable (decode_logp s logp).2
  | step_icdf {s s' : RState} {t : ICDFContext} {k : Nat} : Reachable s →
      0 < t.total → t.total ≤ CODE_BOT →
      t.dist.Sorted (· ≤ ·) → t.dist.getLast? = some t.total →
      decode_icdf s t = some (k, s') → Reachable s'
  | step_uniform {s s' : RState} {len k : Nat} : Reachable s → 0 < len →
      decode_uniform s len = some (k, s') → Reachable s'

end RangeDecoder

/-! ## The CELT frame decoder (`src/src/celt/decoder.rs`)

`f32` is modelled as `ℚ`; `i32` as `Int` (all allocator values stay far
below `2^31`).  Array indexing into the fixed tables is modelled with
`List.getD` at call sites whose indices are always in bounds
(`lm ≤ 3`, band indices `< 21`); the one out-of-bounds access that *is*
reachable (`STATIC_ALLOC[11]` when the outer bisection exhausts its
range) is modelled explicitly with `none`. -/

def SHORT_BLOCKSIZE : Nat := 120
def MAX_BANDS : Nat := 21
def MIN_PERIOD : Nat := 15

def SPREAD_NONE : Nat := 0
def SPREAD_LIGHT : Nat := 1
def SPREAD_NORMAL : Nat := 2
def SPREAD_AGGRESSIVE : Nat := 3

def POSTFILTER_TAPS : List (List ℚ) := [
  [0.3066406250, 0.2170410156, 0.1296386719],
  [0.4638671875, 0.2680664062, 0.0],
  [0.7998046875, 0.1000976562, 0.0]]

def TAPSET : ICDFContext := { total := 4, dist := [2, 3, 4] }

def ALPHA_COEF : List ℚ :=
  [29440 / 32768, 26112 / 32768, 21248 / 32768, 16384 / 32768]

def BETA_COEF : List ℚ :=
  [1 - 30147 / 32768, 1 - 22282 / 32768, 1 - 12124 / 32768, 1 - 6554 / 32768]

def COARSE_ENERGY_INTRA : List (List Nat) := [
  [24, 179, 48, 138, 54, 135, 54, 132, 53, 134, 56, 133, 55, 132, 55, 132, 61, 114, 70, 96,
   74, 88, 75, 88, 87, 74, 89, 66, 91, 67, 100, 59, 108, 50, 120, 40, 122, 37, 97, 43, 78, 50],
  [23, 178, 54, 115, 63, 102, 66, 98, 69, 99, 74, 89, 71, 91, 73, 91, 78, 89, 86, 80, 92, 66,
   93, 64, 102, 59, 103, 60, 104, 60, 117, 52, 123, 44, 138, 35, 133, 31, 97, 38, 77, 45],
  [21, 178, 59, 110, 71, 86, 75, 85, 84, 83, 91, 66, 88, 73, 87, 72, 92, 75, 98, 72, 105, 58,
   107, 54, 115, 52, 114, 55, 112, 56, 129, 51, 132, 40, 150, 33, 140, 29, 98, 35, 77, 42],
  [22, 178, 63, 114, 74, 82, 84, 83, 92, 82, 103, 62, 96, 72, 96, 67, 101, 73, 107, 72, 113,
   55, 118, 52, 125, 52, 118, 52, 117, 55, 135, 49, 137, 39, 157, 32, 145, 29, 97, 33, 77, 40]]

def COARSE_ENERGY_INTER : List (List Nat) := [
  [72, 127, 65, 129, 66, 128, 65, 128, 64, 128, 62, 128, 64, 128, 64, 128, 92, 78, 92, 79, 92,
   78, 90, 79, 116, 41, 115, 40, 114, 40, 132, 26, 132, 26, 145, 17, 161, 12, 176, 10, 177, 11],
  [83, 78, 84, 81, 88, 75, 86, 74, 87, 71, 90, 73, 93, 74, 93, 74, 109, 40, 114, 36, 117, 34,
   117, 34, 143, 17, 145, 18, 146, 19, 162, 12, 165, 10, 178, 7, 189, 6, 190, 8, 177, 9],
  [61, 90, 93, 60, 105, 42, 107, 41, 110, 45, 116, 38, 113, 38, 112, 38, 124, 26, 132, 27,
   136, 19, 140, 20, 155, 14, 159, 16, 158, 18, 170, 13, 177, 10, 187, 8, 192, 6, 175, 9, 159, 10],
  [42, 121, 96, 66, 108, 43, 111, 40, 117, 44, 123, 32, 120, 36, 119, 33, 127, 33, 134, 34,
   139, 21, 147, 23, 152, 20, 158, 25, 154, 26, 166, 21, 173, 16, 184, 13, 184, 10, 150, 13, 139, 15]]

def STATIC_CAPS : List (List (List Nat)) := [
  [[224, 224, 224, 224, 224, 224, 224, 224, 160, 160,
    160, 160, 185, 185, 185, 178, 178, 168, 134, 61, 37],
   [224, 224, 224, 224, 224, 224, 224, 224, 240, 240,
    240, 240, 207, 207, 207, 198, 198, 183, 144, 66, 40]],
  [[160, 160, 160, 160, 160, 160, 160, 160, 185, 185,
    185, 185, 193, 193, 193, 183, 183, 172, 138, 64, 38],
   [240, 240, 240, 240, 240, 240, 240, 240, 207, 207,
    207, 207, 204, 204, 204, 193, 193, 180, 143, 66, 40]],
  [[185, 185, 185, 185, 185, 185, 185, 185, 193, 193,
    193, 193, 193, 193, 193, 183, 183, 172, 138, 65, 39],
   [207, 207, 207, 207, 207, 207, 207, 207, 204, 204,
    204, 204, 201, 201, 201, 188, 188, 176, 141, 66, 40]],
  [[193, 193, 193, 193, 193, 193, 193, 193, 193, 193,
    193, 193, 194, 194, 194, 184, 184, 173, 139, 65, 39],
   [204, 204, 204, 204, 204, 204, 204, 204, 201, 201,
    201, 201, 198, 198, 198, 187, 187, 175, 140, 66, 40]]]

def FREQ_RANGE : List Nat :=
  [1, 1, 1, 1, 1, 1, 1, 1, 2, 2, 2, 2, 4, 4, 4, 6, 6, 8, 12, 18, 22]

def MODEL_ENERGY_SMALL : ICDFContext := { total := 4, dist := [2, 3, 4] }

def TF_SELECT : List (List (List (List Int))) := [
  [[[0, -1], [0, -1]],
   [[0, -1], [0, -1]]],
  [[[0, -1], [0, -2]],
   [[1, 0], [1, -1]]],
  [[[0, -2], [0, -3]],
   [[2, 0], [1, -1]]],
  [[[0, -2], [0, -3]],
   [[3, 0], [1, -1]]]]

def MODEL_SPREAD : ICDFContext := { total := 32, dist := [7, 9, 30, 32] }

def ALLOC_TRIM : ICDFContext :=
  { total := 128, dist := [2, 4, 9, 19, 41, 87, 109, 119, 124, 126, 128] }

def LOG2_FRAC : List Nat :=
  [0, 8, 13, 16, 19, 21, 23, 24, 26, 27, 28, 29, 30, 31, 32, 32, 33, 34, 34, 35, 36, 36, 37, 37]

def STATIC_ALLOC : List (List Nat) := [
  [0, 0, 0, 0, 0, 0, 0, 0, 0, 0, 0, 0, 0, 0, 0, 0, 0, 0, 0, 0, 0],
  [90, 80, 75, 69, 63, 56, 49, 40, 34, 29, 20, 18, 10, 0, 0, 0, 0, 0, 0, 0, 0],
  [110, 100, 90, 84, 78, 71, 65, 58, 51, 45, 39, 32, 26, 20, 12, 0, 0, 0, 0, 0, 0],
  [118, 110, 103, 93, 86, 80, 75, 70, 65, 59, 53, 47, 40, 31, 23, 15, 4, 0, 0, 0, 0],
  [126, 119, 112, 104, 95, 89, 83, 78, 72, 66, 60, 54, 47, 39, 32, 25, 17, 12, 1, 0, 0],
  [134, 127, 120, 114, 103, 97, 91, 85, 78, 72, 66, 60, 54, 47, 41, 35, 29, 23, 16, 10, 1],
  [144, 137, 130, 124, 113, 107, 101, 95, 88, 82, 76, 70, 64, 57, 51, 45, 39, 33, 26, 15, 1],
  [152, 145, 138, 132, 123, 117, 111, 105, 98, 92, 86, 80, 74, 67, 61, 55, 49, 43, 36, 20, 1],
  [162, 155, 148, 142, 133, 127, 121, 115, 108, 102, 96, 90, 84, 77, 71, 65, 59, 53, 46, 30, 1],
  [172, 165, 158, 152, 143, 137, 131, 125, 118, 112, 106, 100, 94, 87, 81, 75, 69, 63, 56, 45, 20],
  [200, 200, 200, 200, 200, 200, 200, 200, 198, 193, 188, 183, 178, 173, 168, 163, 158, 153, 148, 129, 104]]

def CELT_VECTOR : Nat := 11
def ALLOC_STEPS : Nat := 6

/-- `PostFilter` state (gain triples as rational lists). -/
structure PostFilter where
  period : Nat
  period_new : Nat
  period_old : Nat
  gains : List ℚ
  gains_new : List ℚ
  gains_old : List ℚ
  deriving Repr, DecidableEq

def PostFilter.default : PostFilter :=
  { period := 0, period_new := 0, period_old := 0,
    gains := [0, 0, 0], gains_new := [0, 0, 0], gains_old := [0, 0, 0] }

/-- `CeltFrame` (the 2048-sample output scratch buffer of the
out-of-scope synthesis stage is omitted; it is never read or written by
the embedded decode path). -/
structure CeltFrame where
  pf : PostFilter
  energy : List ℚ
  prev_energy : List ℚ
  collapse_masks : List Nat
  deemph_coeff : ℚ
  deriving Repr, DecidableEq

def CeltFrame.default : CeltFrame :=
  { pf := PostFilter.default,
    energy := List.replicate MAX_BANDS 0,
    prev_energy := List.replicate MAX_BANDS 0,
    collapse_masks := List.replicate MAX_BANDS 0,
    deemph_coeff := 0 }

/-- `Celt` decoder state (the band `Range` is two fields). -/
structure Celt where
  stereo : Bool
  stereo_pkt : Bool
  bits : Nat
  lm : Nat
  band_start : Nat
  band_end : Nat
  frame0 : CeltFrame
  frame1 : CeltFrame
  spread : Nat
  fine_bits : List Nat
  fine_priority : List Nat
  pulses : List Int
  tf_change : List Int
  anticollapse_bit : Nat
  blocks : Nat
  blocksize : Nat
  deriving Repr, DecidableEq

/-- `Celt::new`. -/
def Celt.new (stereo : Bool) : Celt :=
  { stereo := stereo, stereo_pkt := false, bits := 0, lm := 0,
    band_start := 0, band_end := MAX_BANDS,
    frame0 := CeltFrame.default, frame1 := CeltFrame.default,
    spread := SPREAD_NORMAL,
    fine_bits := List.replicate MAX_BANDS 0,
    fine_priority := List.replicate MAX_BANDS 0,
    pulses := List.replicate MAX_BANDS 0,
    tf_change := List.replicate MAX_BANDS 0,
    anticollapse_bit := 0, blocks := 0, blocksize := 0 }

/-- Modelled from the spec: the packet descriptor supplies one of the
four CELT frame duration classes (120/240/480/960 samples at 48 kHz). -/
inductive FrameDuration
  | f120
  | f240
  | f480
  | f960
  deriving Repr, DecidableEq

def FrameDuration.size : FrameDuration → Nat
  | .f120 => 120
  | .f240 => 240
  | .f480 => 480
  | .f960 => 960

/-- Modelled from the spec: `decode_laplace` is supplied by the `maths`
collaborator crate (a two-sided geometric residual decoder over the
range-decoder state); the spec fixes only its interface, so the decode
pipeline is parameterized over it. -/
def LaplaceFn : Type := RState → Nat → Int → Int × RState

/-- Arithmetic (sign-preserving) right shift on `i32`, i.e. flooring
division by `2^n`. -/
def sar (x : Int) (n : Nat) : Int := Int.fdiv x (2 ^ n)

/-- `total as usize` for an `i32` value (two's-complement
reinterpretation, then zero extension). -/
def i32_as_usize (x : Int) : Nat := (x % (2 ^ 64 : Int)).toNat

/-- The zig-zag decoding `(v >> 1) ^ -(v & 1)` of the source, written
out arithmetically (in two's complement, xor with `-1` is bitwise
negation, so the expression maps `0, 1, 2, 3, …` to `0, -1, 1, -2, …`). -/
def zigzag (v : Nat) : Int :=
  if v % 2 = 1 then -((v / 2 : Nat) + 1) else (v / 2 : Nat)

namespace Celt

open RangeDecoder

/-- `Celt::reset_gains`. -/
def reset_gains (c : Celt) : Celt :=
  { c with frame0 := { c.frame0 with pf := { c.frame0.pf with gains_new := [0, 0, 0] } },
           frame1 := { c.frame1 with pf := { c.frame1.pf with gains_new := [0, 0, 0] } } }

/-- `Celt::parse_postfilter`. -/
def parse_postfilter (c : Celt) (rd : RState) : Option (Celt × RState) :=
  let (flag, rd1) := decode_logp rd 1
  if flag then do
    let (octave, rd2) ← decode_uniform rd1 6
    let (rbits, rd3) := rawbits rd2 (4 + octave)
    let period := (16 <<< octave) + rbits - 1
    let (g3, rd4) := rawbits rd3 3
    let gain : ℚ := ((g3 + 1 : Nat) : ℚ) * 0.09375
    let (tapset, rd5) ←
      if 2 ≤ available rd4 then decode_icdf rd4 TAPSET
      else some (0, rd4)
    let taps := POSTFILTER_TAPS.getD tapset []
    let newpf := fun (pf : PostFilter) =>
      { pf with period_new := max period MIN_PERIOD,
                gains_new := [taps.getD 0 0 * gain, taps.getD 1 0 * gain,
                              taps.getD 2 0 * gain] }
    some ({ c with frame0 := { c.frame0 with pf := newpf c.frame0.pf },
                   frame1 := { c.frame1 with pf := newpf c.frame1.pf } }, rd5)
  else
    some (c, rd1)

/-- The intra/inter model decision at the top of
`Celt::decode_coarse_energy`: the short-circuiting
`rd.available() > 3 && rd.decode_logp(3)`. -/
def coarseIntraDecision (rd : RState) : Bool × RState :=
  if 3 < available rd then decode_logp rd 3 else (false, rd)

/-- One band of one channel of `Celt::decode_coarse_energy` (the
`coarse_energy_band` closure): updates the channel's energy list, the
channel's running prediction `prev`, and the decoder state. -/
def coarse_energy_band (lap : LaplaceFn) (alpha beta : ℚ) (model : List Nat)
    (bstart bend i : Nat) (e : List ℚ) (prev : ℚ) (rd : RState) :
    Option (List ℚ × ℚ × RState) :=
  if i < bstart ∨ bend ≤ i then
    some (e.set i 0, prev, rd)
  else
    let en := e.getD i 0
    if 15 ≤ available rd then
      let k := min i 20 <<< 1
      let (v, rd') := lap rd (model.getD k 0 <<< 7) ((model.getD (k + 1) 0 <<< 6 : Nat) : Int)
      some (e.set i (max en (-9) * alpha + prev + (v : ℚ)), prev + beta * (v : ℚ), rd')
    else if 1 ≤ available rd then
      match decode_icdf rd MODEL_ENERGY_SMALL with
      | none => none
      | some (w, rd') =>
          let v := zigzag w
          some (e.set i (max en (-9) * alpha + prev + (v : ℚ)), prev + beta * (v : ℚ), rd')
    else
      some (e.set i (max en (-9) * alpha + prev + (-1 : ℚ)), prev + beta * (-1 : ℚ), rd)

/-- The band loop of `Celt::decode_coarse_energy` (`for i in 0..MAX_BANDS`,
channel 0 then — for stereo packets — channel 1).  Structural in the
fuel, which is seeded with `MAX_BANDS` and never runs out before the
loop exit condition. -/
def coarseLoop (lap : LaplaceFn) (stereo_pkt : Bool) (alpha beta : ℚ)
    (model : List Nat) (bstart bend : Nat) :
    Nat → Nat → List ℚ → List ℚ → ℚ → ℚ → RState →
    Option (List ℚ × List ℚ × ℚ × ℚ × RState)
  | 0, _, e0, e1, prev0, prev1, rd => some (e0, e1, prev0, prev1, rd)
  | fuel + 1, i, e0, e1, prev0, prev1, rd =>
      if i < MAX_BANDS then do
        let (e0', prev0', rd') ←
          coarse_energy_band lap alpha beta model bstart bend i e0 prev0 rd
        if stereo_pkt then do
          let (e1', prev1', rd'') ←
            coarse_energy_band lap alpha beta model bstart bend i e1 prev1 rd'
          coarseLoop lap stereo_pkt alpha beta model bstart bend fuel (i + 1)
            e0' e1' prev0' prev1' rd''
        else
          coarseLoop lap stereo_pkt alpha beta model bstart bend fuel (i + 1)
            e0' e1 prev0' prev1 rd'
      else
        some (e0, e1, prev0, prev1, rd)

/-- `Celt::decode_coarse_energy`.  Returns the updated per-channel
energies, the final decoder state, and the (instrumented) intra flag. -/
def decode_coarse_energy (lap : LaplaceFn) (c : Celt) (rd : RState)
    (bstart bend : Nat) : Option (List ℚ × List ℚ × RState × Bool) := do
  let (intra, rd1) := coarseIntraDecision rd
  let abm : ℚ × ℚ × List Nat :=
    if intra then
      (0, 1 - 4915 / 32768, COARSE_ENERGY_INTRA.getD c.lm [])
    else
      (ALPHA_COEF.getD c.lm 0, BETA_COEF.getD c.lm 0, COARSE_ENERGY_INTER.getD c.lm [])
  let (e0, e1, _, _, rd2) ←
    coarseLoop lap c.stereo_pkt abm.1 abm.2.1 abm.2.2 bstart bend MAX_BANDS 0
      c.frame0.energy c.frame1.energy 0 0 rd1
  some (e0, e1, rd2, intra)

/-- Loop state of `Celt::decode_tf_changes`' band loop.  `spent`
instruments, per absolute band index, whether the band's probability
bits were spent (the value of the budget guard). -/
structure TfLoopState where
  rd : RState
  avail : Nat
  diff : Bool
  changed : Bool
  tf_changed : List Bool
  spent : List Bool
  field_bits : Nat
  deriving Repr, DecidableEq

/-- The band loop of `Celt::decode_tf_changes` (fuel-structural; seeded
with `bend`). -/
def tfLoop (bend : Nat) (bitsSecond : Nat) (select_bit : Bool) :
    Nat → Nat → TfLoopState → TfLoopState
  | 0, _, st => st
  | fuel + 1, i, st =>
      if i < bend then
        let st' :=
          if st.field_bits + (if select_bit then 1 else 0) < st.avail then
            let (d, rd') := decode_logp st.rd st.field_bits
            let diff' := xor st.diff d
            { st with rd := rd', avail := available rd', diff := diff',
                      changed := st.changed || diff',
                      spent := st.spent.set i true }
          else
            { st with spent := st.spent.set i false }
        tfLoop bend bitsSecond select_bit fuel (i + 1)
          { st' with tf_changed := st'.tf_changed.set i st'.diff,
                     field_bits := bitsSecond }
      else st

/-- Output of `Celt::decode_tf_changes` (with the instrumented
`tf_changed`/`spent` arrays alongside the written `tf_change`). -/
structure TfOut where
  rd : RState
  tf_changed : List Bool
  spent : List Bool
  select : Bool
  tf_change : List Int
  deriving Repr, DecidableEq

/-- The final per-band assignment `tf_change[i] = tf_select[select][changed]`
(fuel-structural; seeded with `bend`). -/
def tfAssign (sel : List (List Int)) (select : Bool) (tf_changed : List Bool)
    (bend : Nat) : Nat → Nat → List Int → List Int
  | 0, _, tf => tf
  | fuel + 1, i, tf =>
      if i < bend then
        tfAssign sel select tf_changed bend fuel (i + 1)
          (tf.set i ((sel.getD (if select then 1 else 0) []).getD
            (if tf_changed.getD i false then 1 else 0) 0))
      else tf

/-- `Celt::decode_tf_changes`. -/
def decode_tf_changes (c : Celt) (rd : RState) (bstart bend : Nat)
    (transient : Bool) : TfOut :=
  let bits : Nat × Nat := if transient then (2, 4) else (4, 5)
  let avail := available rd
  let tf_select := (TF_SELECT.getD c.lm []).getD (if transient then 1 else 0) []
  let select_bit := c.lm ≠ 0 ∧ bits.1 < avail
  let stF := tfLoop bend bits.2 (decide select_bit) bend bstart
    { rd := rd, avail := avail, diff := false, changed := false,
      tf_changed := List.replicate MAX_BANDS false,
      spent := List.replicate MAX_BANDS false,
      field_bits := bits.1 }
  let sel0 := (tf_select.getD 0 []).getD (if stF.changed then 1 else 0) 0
  let sel1 := (tf_select.getD 1 []).getD (if stF.changed then 1 else 0) 0
  let selStep : Bool × RState :=
    if decide select_bit = true ∧ sel0 ≠ sel1 then decode_logp stF.rd 1
    else (false, stF.rd)
  { rd := selStep.2,
    tf_changed := stF.tf_changed,
    spent := stF.spent,
    select := selStep.1,
    tf_change := tfAssign tf_select selStep.1 stF.tf_changed bend bend bstart
      c.tf_change }

/-- The per-band hard caps (`caps` initialization of
`Celt::decode_allocation`): `(static_cap + 64) * freq_range << (lm +
stereo) >> 2`. -/
def capsList (lm : Nat) (stereo_pkt : Bool) : List Int :=
  (List.range MAX_BANDS).map (fun i =>
    (((((STATIC_CAPS.getD lm []).getD (if stereo_pkt then 1 else 0) []).getD i 0 + 64)
      * FREQ_RANGE.getD i 0) <<< (lm + if stereo_pkt then 1 else 0) >>> 2 : Nat))

/-- The `spread` decision at the top of `Celt::decode_allocation`. -/
def decodeSpread (rd : RState) : Option (Nat × RState) :=
  if 4 < available rd then decode_icdf rd MODEL_SPREAD
  else some (SPREAD_NORMAL, rd)

/-- The inner dynalloc `while` loop (per band).  `fuel` bounds the
iteration count; each real iteration grows `boost` by `quanta ≥ 8`
toward `cap`, so the fuel below is never exhausted on real inputs. -/
def dynallocInner (fuel : Nat) (rd : RState) (quanta cap boost : Int)
    (boost_size : Nat) (band_dynalloc : Nat) : RState × Int × Nat :=
  match fuel with
  | 0 => (rd, boost, boost_size)
  | fuel + 1 =>
      if (band_dynalloc <<< 3) + boost_size < available_frac rd ∧ boost < cap then
        let (add, rd') := decode_logp rd band_dynalloc
        if add then
          dynallocInner fuel rd' quanta cap (boost + quanta)
            (boost_size + quanta.toNat) 1
        else (rd', boost, boost_size)
      else (rd, boost, boost_size)

/-- The dynalloc band loop of `Celt::decode_allocation` (fuel-structural;
seeded with `bend`).  `quanta` is computed in `u8` in the source
(`FREQ_RANGE` is `&[u8]`), so both `FREQ_RANGE[i] << scale` and
`quanta << 3` wrap mod 256 before the `min`/`max` and the `as i32`
zero-extension. -/
def dynallocLoop (caps : List Int) (scale : Nat) (bend : Nat) :
    Nat → Nat → RState → List Int → Nat → Nat → RState × List Int × Nat
  | 0, _, rd, boost, boost_size, _ => (rd, boost, boost_size)
  | fuel + 1, i, rd, boost, boost_size, dynalloc =>
      if i < bend then
        let q := (FREQ_RANGE.getD i 0 <<< scale) % 256
        let quanta := min ((q <<< 3) % 256) (max q (6 <<< 3))
        let r := dynallocInner 16384 rd (quanta : Int) (caps.getD i 0)
          (boost.getD i 0) boost_size dynalloc
        let dynalloc' := if r.2.1 ≠ 0 ∧ 2 < dynalloc then dynalloc - 1 else dynalloc
        dynallocLoop caps scale bend fuel (i + 1) r.1 (boost.set i r.2.1) r.2.2
          dynalloc'
      else (rd, boost, boost_size)

/-- The `alloc_trim` decision of `Celt::decode_allocation`. -/
def decodeTrim (rd : RState) (boost_size : Nat) : Option (Int × RState) :=
  if boost_size + (6 <<< 3) < available_frac rd then
    (decode_icdf rd ALLOC_TRIM).map (fun p => ((p.1 : Int), p.2))
  else some (5, rd)

/-- The `threshold`/`trim_offset` precomputation loop of
`Celt::decode_allocation` (fuel-structural; seeded with `bend`). -/
def thresholdLoop (lm : Nat) (stereo_pkt : Bool) (alloc_trim : Int)
    (bend : Nat) : Nat → Nat → List Int → List Int → List Int × List Int
  | 0, _, threshold, trim_offset => (threshold, trim_offset)
  | fuel + 1, i, threshold, trim_offset =>
      if i < bend then
        let trim := alloc_trim - ((5 + lm : Nat) : Int)
        let range := FREQ_RANGE.getD i 0 * (bend - i - 1)
        let lmv := lm + 3
        let scale := lmv + (if stereo_pkt then 1 else 0)
        let st : Int := if stereo_pkt then 1 <<< 8 else 0
        let thr := max ((((3 * FREQ_RANGE.getD i 0) <<< lmv >>> 4 : Nat) : Int)) st
        let toff := sar (trim * ((range <<< scale : Nat) : Int)) 6
        let toff := if FREQ_RANGE.getD i 0 <<< lm = 1 then toff - st else toff
        thresholdLoop lm stereo_pkt alloc_trim bend fuel (i + 1)
          (threshold.set i thr) (trim_offset.set i toff)
      else (threshold, trim_offset)

/-- The band indices of the range `[bstart, bend)` in the reversed
(highest-band-first) order used by all three cost/assignment loops. -/
def bandRev (bstart bend : Nat) : List Nat :=
  (List.range' bstart (bend - bstart)).reverse

/-- One band's contribution to the estimated total, with the `done`
threshold logic shared by the outer probe, the inner probe and the
final assignment. -/
def costStep (threshold caps : List Int) (ccb : Int) (b : Int) (i : Nat)
    (acc : Int × Bool) : Int × Bool :=
  if threshold.getD i 0 ≤ b ∨ acc.2 then
    (acc.1 + min b (caps.getD i 0), true)
  else if ccb ≤ b then (acc.1 + ccb, acc.2)
  else acc

/-- Total estimated cost of the per-band bit vector `bits` over the
reversed band list (the body of each bisection probe). -/
def allocCost (rev : List Nat) (threshold caps : List Int) (ccb : Int)
    (bits : Nat → Int) : Int :=
  (rev.foldl (fun acc i => costStep threshold caps ccb (bits i) i acc)
    ((0 : Int), false)).1

/-- `bits_estimation` (also the `bandbits` base of the outer bisection):
the static-allocation base, trim-adjusted and clamped at zero when the
base is nonzero. -/
def estBits (stereo_pkt : Bool) (lm : Nat) (trim_offset : List Int)
    (idx i : Nat) : Int :=
  let base : Nat := (FREQ_RANGE.getD i 0 * (STATIC_ALLOC.getD idx []).getD i 0)
      <<< (if stereo_pkt then 1 else 0) <<< lm >>> 2
  if base ≠ 0 then max ((base : Int) + trim_offset.getD i 0) 0 else (base : Int)

/-- The outer bisection loop (`while low <= high`), fuel-indexed; fuel
16 exceeds the worst-case iteration count over `[1, 10]`.  (`center` is
always at least 1 at the call site, so the `center - 1` truncation is
never hit at 0.) -/
def outerGo (T : Nat → Int) (avail : Nat) : Nat → Nat → Nat → Nat
  | 0, low, _ => low
  | fuel + 1, low, high =>
      if low ≤ high then
        let center := (low + high) / 2
        if avail < i32_as_usize (T center) then
          outerGo T avail fuel low (center - 1)
        else
          outerGo T avail fuel (center + 1) high
      else low

/-- The inner 6-step interpolation bisection. -/
def innerGo (T : Nat → Int) (avail : Nat) : Nat → Nat × Nat → Nat × Nat
  | 0, lh => lh
  | fuel + 1, lh =>
      let center := (lh.1 + lh.2) / 2
      if avail < i32_as_usize (T center) then innerGo T avail fuel (lh.1, center)
      else innerGo T avail fuel (center, lh.2)

/-- The `bits1`/`bits2`/`skip_startband` loop between the two bisections
(fuel-structural; seeded with `bend`). -/
def bits12Loop (stereo_pkt : Bool) (lm : Nat) (trim_offset boost : List Int)
    (low high : Nat) (bend : Nat) :
    Nat → Nat → List Int → List Int → Nat → List Int × List Int × Nat
  | 0, _, bits1, bits2, skip_startband => (bits1, bits2, skip_startband)
  | fuel + 1, i, bits1, bits2, skip_startband =>
      if i < bend then
        let b1 := estBits stereo_pkt lm trim_offset low i
        let b2 := estBits stereo_pkt lm trim_offset high i
        let bI := boost.getD i 0
        let b1' := if bI ≠ 0 ∧ low ≠ 0 then b1 + bI else b1
        let b2' := if bI ≠ 0 then b2 + bI else b2
        let ssb' := if bI ≠ 0 then i else skip_startband
        bits12Loop stereo_pkt lm trim_offset boost low high bend fuel (i + 1)
          (bits1.set i b1') (bits2.set i (max (b2' - b1') 0)) ssb'
      else (bits1, bits2, skip_startband)

/-- The final per-band pulse assignment (reversed band order, `done`
propagation, clamping at the caps). -/
def assignLoop (threshold caps : List Int) (ccb : Int)
    (bits1 bits2 : List Int) (innerLow : Nat) :
    List Nat → Bool → List Int → List Int
  | [], _, pulses => pulses
  | i :: rest, done, pulses =>
      let b := bits1.getD i 0 + sar ((innerLow : Int) * bits2.getD i 0) ALLOC_STEPS
      if threshold.getD i 0 ≤ b ∨ done then
        assignLoop threshold caps ccb bits1 bits2 innerLow rest true
          (pulses.set i (min b (caps.getD i 0)))
      else
        assignLoop threshold caps ccb bits1 bits2 innerLow rest done
          (pulses.set i (min (if ccb ≤ b then ccb else 0) (caps.getD i 0)))

/-- The pure bisection section of `Celt::decode_allocation` (source
lines 561–693: outer bisection, `bits1`/`bits2`, inner bisection, final
assignment).  It performs no decoder reads.  `none` models the
`STATIC_ALLOC[11]` out-of-bounds panic, which fires when the outer
bisection exhausts its range (`low` ends at 11) and the band range is
nonempty. -/
def allocBisect (bstart bend : Nat) (stereo_pkt : Bool) (lm : Nat)
    (caps threshold trim_offset boost : List Int) (avail : Nat)
    (pulses0 : List Int) (skip0 : Nat) : Option (List Int × Nat) :=
  let ccb : Int := ((if stereo_pkt then 1 else 0) + 1) <<< 3
  let rev := bandRev bstart bend
  let outerT := fun c =>
    allocCost rev threshold caps ccb
      (fun i => estBits stereo_pkt lm trim_offset c i + boost.getD i 0)
  let lowF := outerGo outerT avail 16 1 (CELT_VECTOR - 1)
  let high := lowF
  let low := lowF - 1
  if bstart < bend ∧ CELT_VECTOR ≤ high then none
  else
    let b12 := bits12Loop stereo_pkt lm trim_offset boost low high bend bend bstart
      (List.replicate MAX_BANDS 0) (List.replicate MAX_BANDS 0) skip0
    let innerT := fun (c : Nat) =>
      allocCost rev threshold caps ccb
        (fun j => b12.1.getD j 0 + sar ((c : Int) * b12.2.1.getD j 0) ALLOC_STEPS)
    let lh := innerGo innerT avail ALLOC_STEPS (0, 1 <<< ALLOC_STEPS)
    some (assignLoop threshold caps ccb b12.1 b12.2.1 lh.1 rev false pulses0,
      b12.2.2)

/-- Output of `Celt::decode_allocation` (`spread`, `boost` and
`alloc_trim` are instrumented local variables of the source). -/
structure AllocOut where
  rd : RState
  spread : Nat
  boost : List Int
  alloc_trim : Int
  anticollapse_bit : Nat
  pulses : List Int
  skip_startband : Nat
  deriving Repr, DecidableEq

/-- `Celt::decode_allocation`. -/
def decode_allocation (c : Celt) (rd : RState) (bstart bend : Nat) :
    Option AllocOut := do
  let caps := capsList c.lm c.stereo_pkt
  let scale := c.lm + (if c.stereo_pkt then 1 else 0)
  let (spread, rd1) ← decodeSpread rd
  let dyn := dynallocLoop caps scale bend bend bstart rd1
    (List.replicate MAX_BANDS 0) 0 6
  let (alloc_trim, rd3) ← decodeTrim dyn.1 dyn.2.2
  let avail0 := usub (available_frac rd3) 1
  let ac : Nat × Nat :=
    if 1 < c.blocks ∧ 2 ≤ c.lm ∧ (c.lm + 2) <<< 3 ≤ avail0 then
      (usub avail0 (1 <<< 3), 1 <<< 3)
    else (avail0, 0)
  let sk : Nat × Nat :=
    if 1 <<< 3 ≤ ac.1 then (usub ac.1 (1 <<< 3), 1 <<< 3)
    else (ac.1, 0)
  let avail3 : Nat :=
    if c.stereo_pkt then
      let intensity_stereo := LOG2_FRAC.getD (bend - bstart) 0
      if intensity_stereo ≤ sk.1 then
        let a := usub sk.1 intensity_stereo
        if 1 <<< 3 ≤ a then usub a (1 <<< 3) else a
      else sk.1
    else sk.1
  let thr := thresholdLoop c.lm c.stereo_pkt alloc_trim bend bend bstart
    (List.replicate MAX_BANDS 0) (List.replicate MAX_BANDS 0)
  let bis ← allocBisect bstart bend c.stereo_pkt c.lm caps thr.1 thr.2
    dyn.2.1 avail3 c.pulses bstart
  some { rd := rd3, spread := spread, boost := dyn.2.1,
         alloc_trim := alloc_trim, anticollapse_bit := ac.2,
         pulses := bis.1, skip_startband := bis.2 }

/-- Output of `Celt::decode`.  `postfilterParsed` and
`transientDecoded` instrument the two branch conditions of the source
( `band.start == 0 && rd.available() >= 16` and
`self.lm != 0 && rd.available() >= 3`); `silence`, `transient`, `intra`
and `spread` record the corresponding decoded or defaulted values. -/
structure DecodeOut where
  c : Celt
  rd : RState
  silence : Bool
  postfilterParsed : Bool
  transientDecoded : Bool
  transient : Bool
  intra : Bool
  spread : Nat
  deriving Repr, DecidableEq

/-- `Celt::decode` (the whole per-frame pipeline). -/
def decode (lap : LaplaceFn) (c0 : Celt) (rd : RState)
    (frame_duration : FrameDuration) (bstart bend : Nat) :
    Option DecodeOut :=
  if MAX_BANDS < bend then none
  else
    let frame_size := frame_duration.size
    let lm := ilog (frame_size / SHORT_BLOCKSIZE) - 1
    let c1 := { c0 with lm := lm }
    let si := if 0 < available rd then decode_logp rd 15 else (true, rd)
    let silence := si.1
    let rd2 := if silence then to_end si.2 else si.2
    let c2 := reset_gains c1
    let pfCond := bstart = 0 ∧ 16 ≤ available rd2
    do
      let (c3, rd3) ← if pfCond then parse_postfilter c2 rd2 else some (c2, rd2)
      let trCond := lm ≠ 0 ∧ 3 ≤ available rd3
      let tr := if trCond then decode_logp rd3 3 else (false, rd3)
      let transient := tr.1
      let blocks := if transient then 1 <<< lm else 1
      let c4 := { c3 with blocks := blocks, blocksize := frame_size / blocks }
      let c5 := if ¬ c4.stereo_pkt then
          { c4 with frame0 := { c4.frame0 with
              energy := List.zipWith max c4.frame0.energy c4.frame1.energy } }
        else c4
      let c6 := { c5 with
        frame0 := { c5.frame0 with collapse_masks := List.replicate MAX_BANDS 0 },
        frame1 := { c5.frame1 with collapse_masks := List.replicate MAX_BANDS 0 } }
      let (e0, e1, rd5, intra) ← decode_coarse_energy lap c6 tr.2 bstart bend
      let c7 := { c6 with frame0 := { c6.frame0 with energy := e0 },
                          frame1 := { c6.frame1 with energy := e1 } }
      let tfo := decode_tf_changes c7 rd5 bstart bend transient
      let c8 := { c7 with tf_change := tfo.tf_change }
      let ao ← decode_allocation c8 tfo.rd bstart bend
      let c9 := { c8 with pulses := ao.pulses,
                          anticollapse_bit := ao.anticollapse_bit }
      some { c := c9, rd := ao.rd, silence := silence,
             postfilterParsed := decide pfCond,
             transientDecoded := decide trCond,
             transient := transient, intra := intra, spread := ao.spread }

/-- Derived closed form for the amended C1 claim: one channel of the
coarse energy recurrence when the whole-bit budget is exhausted.  Every
in-range band takes residual `-1` through the chosen model's recurrence
(`e[i] := max(e[i], -9) * alpha + prev - 1`, `prev := prev - beta`);
out-of-range bands are zeroed.  Returns the energies and the final
`prev`. -/
def silentCoarse (alpha beta : ℚ) (bstart bend : Nat) :
    Nat → Nat → List ℚ → ℚ → List ℚ × ℚ
  | 0, _, e, prev => (e, prev)
  | fuel + 1, i, e, prev =>
      if i < MAX_BANDS then
        if i < bstart ∨ bend ≤ i then
          silentCoarse alpha beta bstart bend fuel (i + 1) (e.set i 0) prev
        else
          silentCoarse alpha beta bstart bend fuel (i + 1)
            (e.set i (max (e.getD i 0) (-9) * alpha + prev + (-1 : ℚ)))
            (prev + beta * (-1 : ℚ))
      else (e, prev)

end Celt

/-- A trivial Laplace decoder stub (always returns symbol 0 without
touching the state), used to instantiate the `LaplaceFn` parameter of
the pipeline at concrete inputs. -/
def lapZero : LaplaceFn := fun s _ _ => (0, s)

/-! ## Basic lemmas -/

theorem usub_eq_sub {a b : Nat} (hb : b ≤ a) (ha : a < USIZE) :
    usub a b = a - b := by
  unfold usub
  have hbU : b < USIZE := lt_of_le_of_lt hb ha
  rw [Nat.mod_eq_of_lt hbU]
  have h1 : a + (USIZE - b) = USIZE + (a - b) := by omega
  rw [h1, Nat.add_mod_left, Nat.mod_eq_of_lt (by omega)]

theorem fwdBit_le_one (buf : List Nat) (i : Nat) : fwdBit buf i ≤ 1 :=
  Nat.and_le_right

theorem fwdBits_lt (buf : List Nat) (pos n : Nat) : fwdBits buf pos n < 2 ^ n := by
  induction n with
  | zero => simp [fwdBits]
  | succ n ih =>
      have h := fwdBit_le_one buf (pos + n)
      simp only [fwdBits, pow_succ]
      omega

/-- The backward-cursor model reproduces the `reverse_bitread` test
vector embedded in `src/entropy.rs` (the first 25 reads, at their
cumulative bit positions). -/
theorem revBits_testvec :
    revBits [197, 105, 76, 120, 136, 74, 169, 50, 225, 8, 231, 211, 227, 151,
        186, 58, 173, 139] 0 3 = 3 ∧
    revBits [197, 105, 76, 120, 136, 74, 169, 50, 225, 8, 231, 211, 227, 151,
        186, 58, 173, 139] 3 3 = 1 ∧
    revBits [197, 105, 76, 120, 136, 74, 169, 50, 225, 8, 231, 211, 227, 151,
        186, 58, 173, 139] 6 3 = 6 ∧
    revBits [197, 105, 76, 120, 136, 74, 169, 50, 225, 8, 231, 211, 227, 151,
        186, 58, 173, 139] 9 3 = 6 ∧
    revBits [197, 105, 76, 120, 136, 74, 169, 50, 225, 8, 231, 211, 227, 151,
        186, 58, 173, 139] 12 3 = 2 ∧
    revBits [197, 105, 76, 120, 136, 74, 169, 50, 225, 8, 231, 211, 227, 151,
        186, 58, 173, 139] 15 3 = 5 ∧
    revBits [197, 105, 76, 120, 136, 74, 169, 50, 225, 8, 231, 211, 227, 151,
        186, 58, 173, 139] 18 3 = 6 ∧
    revBits [197, 105, 76, 120, 136, 74, 169, 50, 225, 8, 231, 211, 227, 151,
        186, 58, 173, 139] 21 3 = 1 ∧
    revBits [197, 105, 76, 120, 136, 74, 169, 50, 225, 8, 231, 211, 227, 151,
        186, 58, 173, 139] 24 2 = 2 ∧
    revBits [197, 105, 76, 120, 136, 74, 169, 50, 225, 8, 231, 211, 227, 151,
        186, 58, 173, 139] 26 2 = 2 ∧
    revBits [197, 105, 76, 120, 136, 74, 169, 50, 225, 8, 231, 211, 227, 151,
        186, 58, 173, 139] 28 3 = 3 ∧
    revBits [197, 105, 76, 120, 136, 74, 169, 50, 225, 8, 231, 211, 227, 151,
        186, 58, 173, 139] 31 3 = 7 ∧
    revBits [197, 105, 76, 120, 136, 74, 169, 50, 225, 8, 231, 211, 227, 151,
        186, 58, 173, 139] 34 3 = 5 ∧
    revBits [197, 105, 76, 120, 136, 74, 169, 50, 225, 8, 231, 211, 227, 151,
        186, 58, 173, 139] 37 3 = 4 ∧
    revBits [197, 105, 76, 120, 136, 74, 169, 50, 225, 8, 231, 211, 227, 151,
        186, 58, 173, 139] 40 2 = 3 ∧
    revBits [197, 105, 76, 120, 136, 74, 169, 50, 225, 8, 231, 211, 227, 151,
        186, 58, 173, 139] 42 2 = 0 ∧
    revBits [197, 105, 76, 120, 136, 74, 169, 50, 225, 8, 231, 211, 227, 151,
        186, 58, 173, 139] 44 3 = 6 ∧
    revBits [197, 105, 76, 120, 136, 74, 169, 50, 225, 8, 231, 211, 227, 151,
        186, 58, 173, 139] 47 3 = 7 ∧
    revBits [197, 105, 76, 120, 136, 74, 169, 50, 225, 8, 231, 211, 227, 151,
        186, 58, 173, 139] 50 3 = 4 ∧
    revBits [197, 105, 76, 120, 136, 74, 169, 50, 225, 8, 231, 211, 227, 151,
        186, 58, 173, 139] 53 3 = 6 ∧
    revBits [197, 105, 76, 120, 136, 74, 169, 50, 225, 8, 231, 211, 227, 151,
        186, 58, 173, 139] 56 3 = 7 ∧
    revBits [197, 105, 76, 120, 136, 74, 169, 50, 225, 8, 231, 211, 227, 151,
        186, 58, 173, 139] 59 3 = 4 ∧
    revBits [197, 105, 76, 120, 136, 74, 169, 50, 225, 8, 231, 211, 227, 151,
        186, 58, 173, 139] 62 3 = 3 ∧
    revBits [197, 105, 76, 120, 136, 74, 169, 50, 225, 8, 231, 211, 227, 151,
        186, 58, 173, 139] 65 3 = 4 ∧
    revBits [197, 105, 76, 120, 136, 74, 169, 50, 225, 8, 231, 211, 227, 151,
        186, 58, 173, 139] 68 3 = 0 := by decide

/-! ## Range decoder invariants -/

theorem CODE_TOP_eq : CODE_TOP = 2 ^ 31 := by decide
theorem CODE_BOT_eq : CODE_BOT = 2 ^ 23 := by decide
theorem SYM_MAX_eq : SYM_MAX = 255 := by decide

/-- `b < 2^n` makes the low bits of `a * 2^n` and `b` disjoint, so their
bitwise or is their sum. -/
theorem mul_two_pow_lor_eq_add : ∀ (n a : Nat) {b : Nat}, b < 2 ^ n →
    a * 2 ^ n ||| b = a * 2 ^ n + b
  | 0, a, b, h => by
      have hb : b = 0 := by omega
      subst hb; simp
  | n + 1, a, b, h => by
      have hb : Nat.bit b.bodd b.div2 = b := Nat.bit_decomp b
      have hbv : 2 * b.div2 + b.bodd.toNat = b := by
        have h1 := Nat.bit_val b.bodd b.div2
        rw [hb] at h1
        omega
      have hp : (2 : Nat) ^ (n + 1) = 2 ^ n * 2 := pow_succ 2 n
      have hbt : b.bodd.toNat ≤ 1 := by cases b.bodd <;> simp
      have hdiv : b.div2 < 2 ^ n := by
        rw [hp] at h
        omega
      have ha : Nat.bit false (a * 2 ^ n) = a * 2 ^ (n + 1) := by
        rw [Nat.bit_val, hp]
        simp only [Bool.toNat_false]
        ring
      calc a * 2 ^ (n + 1) ||| b
          = Nat.bit false (a * 2 ^ n) ||| Nat.bit b.bodd b.div2 := by rw [ha, hb]
        _ = Nat.bit b.bodd (a * 2 ^ n ||| b.div2) := by
              rw [Nat.lor_bit]
              simp only [Bool.false_or]
        _ = Nat.bit b.bodd (a * 2 ^ n + b.div2) := by
              rw [mul_two_pow_lor_eq_add n a hdiv]
        _ = 2 * (a * 2 ^ n + b.div2) + b.bodd.toNat := Nat.bit_val _ _
        _ = a * 2 ^ (n + 1) + b := by
              rw [hp, ← Nat.mul_assoc]
              omega

namespace RangeDecoder

theorem normGo_inv : ∀ (fuel : Nat) (s : RState),
    0 < s.range → s.range ≤ CODE_TOP → s.value < s.range →
    CODE_BOT < s.range * 256 ^ fuel →
    Inv (normGo fuel s)
  | 0, s, _, h2, h3, h4 => by
      simp only [normGo]
      exact ⟨by simpa using h4, h2, h3⟩
  | fuel + 1, s, h1, h2, h3, h4 => by
      rw [normGo]
      split
      · next hle =>
        have hv : fwdBits s.buf s.fpos SYM_BITS ^^^ SYM_MAX < 2 ^ 8 := by
          refine Nat.xor_lt_two_pow (fwdBits_lt _ _ _) ?_
          rw [SYM_MAX_eq]; norm_num
        apply normGo_inv fuel
        · simp only [Nat.shiftLeft_eq]
          positivity
        · simp only [Nat.shiftLeft_eq]
          calc s.range * 2 ^ SYM_BITS ≤ CODE_BOT * 2 ^ 8 := by
                exact Nat.mul_le_mul hle (by norm_num [SYM_BITS])
            _ ≤ CODE_TOP := by rw [CODE_BOT_eq, CODE_TOP_eq]; norm_num
        · show (s.value <<< SYM_BITS ||| _) % CODE_TOP < s.range <<< SYM_BITS
          have hlt : s.value <<< SYM_BITS ||| (fwdBits s.buf s.fpos SYM_BITS ^^^ SYM_MAX)
              < s.range <<< SYM_BITS := by
            show s.value <<< 8 ||| _ < s.range <<< 8
            rw [Nat.shiftLeft_eq, Nat.shiftLeft_eq,
              mul_two_pow_lor_eq_add 8 s.value hv]
            omega
          exact lt_of_le_of_lt (Nat.mod_le _ _) hlt
        · simp only [Nat.shiftLeft_eq]
          calc CODE_BOT < s.range * 256 ^ (fuel + 1) := h4
            _ = s.range * 2 ^ SYM_BITS * 256 ^ fuel := by
                norm_num [SYM_BITS, pow_succ]; ring
      · next hgt =>
        exact ⟨by omega, h2, h3⟩

theorem normalize_inv {s : RState} (h1 : 0 < s.range) (h2 : s.range ≤ CODE_TOP)
    (h3 : s.value < s.range) : Inv (normalize s) := by
  apply normGo_inv 24 s h1 h2 h3
  calc CODE_BOT < 1 * 256 ^ 24 := by rw [CODE_BOT_eq]; norm_num
    _ ≤ s.range * 256 ^ 24 := Nat.mul_le_mul_right _ h1

theorem new_inv (buf : List Nat) : Inv (new buf) := by
  apply normalize_inv
  · norm_num
  · rw [CODE_TOP_eq]; norm_num
  · have := fwdBits_lt buf 0 7
    show 127 - fwdBits buf 0 7 < 128
    omega

theorem decode_logp_inv {s : RState} (h : Inv s) (logp : Nat) :
    Inv (decode_logp s logp).2 := by
  obtain ⟨h1, h2, h3⟩ := h
  rw [decode_logp]
  generalize hK : s.range >>> logp = K
  have hKle : K ≤ s.range := by
    rw [← hK, Nat.shiftRight_eq_div_pow]
    exact Nat.div_le_self _ _
  split
  · next hlt =>
    exact @normalize_inv { s with range := K }
      (show 0 < K by omega) (show K ≤ CODE_TOP by omega) hlt
  · next hge =>
    push_neg at hge
    exact @normalize_inv { s with range := s.range - K, value := s.value - K }
      (show 0 < s.range - K by omega)
      (show s.range - K ≤ CODE_TOP by omega)
      (show s.value - K < s.range - K by omega)

/-- Core lemma about `update`: under the interval conditions established
by the callers it succeeds and preserves the invariant. -/
theorem update_spec {s : RState} {scale low high total : Nat}
    (hInv : Inv s)
    (hscale : 0 < scale)
    (hst : scale * total ≤ s.range)
    (hlh : low < high)
    (hht : high ≤ total)
    (hsym_high : total - min (s.value / scale + 1) total < high)
    (hlow_sym : low ≤ total - min (s.value / scale + 1) total) :
    ∃ s', update s scale low high total = some s' ∧ Inv s' := by
  obtain ⟨h1, h2, h3⟩ := hInv
  have hqmul : scale * (s.value / scale) ≤ s.value := by
    rw [Nat.mul_comm]
    exact Nat.div_mul_le_self _ _
  have hqlt : s.value < scale * (s.value / scale + 1) :=
    Nat.lt_mul_div_succ _ hscale
  generalize hqdef : s.value / scale = q at hqmul hqlt hsym_high hlow_sym
  have hsc_val : scale * (total - high) ≤ s.value := by
    have hth : total - high ≤ q := by omega
    calc scale * (total - high) ≤ scale * q := Nat.mul_le_mul_left _ hth
      _ ≤ s.value := hqmul
  have hsc_range : scale * (total - high) ≤ s.range := by
    calc scale * (total - high) ≤ scale * total := Nat.mul_le_mul_left _ (by omega)
      _ ≤ s.range := hst
  rw [update, if_pos hht, if_pos hsc_val, if_pos (Or.inl hsc_range)]
  rcases Nat.eq_zero_or_pos low with hlow0 | hlowpos
  · subst hlow0
    have hrange' : 0 < s.range - scale * (total - high) := by
      have hmul : scale * high ≤ scale * total := Nat.mul_le_mul_left _ hht
      have h4 : scale * (total - high) + scale * high = scale * total := by
        rw [← Nat.mul_add]
        congr 1
        omega
      have h5 : 0 < scale * high := Nat.mul_pos hscale (by omega)
      omega
    simp only [ne_eq, not_true_eq_false, if_false, ite_false]
    rw [if_neg (by omega)]
    refine ⟨_, rfl, ?_⟩
    refine normalize_inv ?_ ?_ ?_
    · exact hrange'
    · show s.range - scale * (total - high) ≤ CODE_TOP
      omega
    · show s.value - scale * (total - high) < s.range - scale * (total - high)
      omega
  · have hlowne : low ≠ 0 := by omega
    have hrangepos : 0 < scale * (high - low) := Nat.mul_pos hscale (by omega)
    have hrangele : scale * (high - low) ≤ s.range := by
      calc scale * (high - low) ≤ scale * total := Nat.mul_le_mul_left _ (by omega)
        _ ≤ s.range := hst
    have hval' : s.value - scale * (total - high) < scale * (high - low) := by
      have hq1 : q + 1 ≤ total - low := by omega
      have hvlt : s.value < scale * (total - low) :=
        lt_of_lt_of_le hqlt (Nat.mul_le_mul_left _ hq1)
      have hexp : scale * (high - low) + scale * (total - high) = scale * (total - low) := by
        rw [← Nat.mul_add]
        congr 1
        omega
      omega
    simp only [ne_eq, hlowne, not_false_eq_true, if_true, ite_true]
    rw [if_neg (by omega)]
    refine ⟨_, rfl, ?_⟩
    refine normalize_inv ?_ ?_ ?_
    · exact hrangepos
    · show scale * (high - low) ≤ CODE_TOP
      omega
    · show s.value - scale * (total - high) < scale * (high - low)
      exact hval'

/-- Characterization of `List.findIdx?`: the found index is in range,
satisfies the predicate, and is the first to do so. -/
theorem findIdx?_spec {p : Nat → Bool} : ∀ {l : List Nat} {k : Nat},
    l.findIdx? p = some k →
    k < l.length ∧ p (l.getD k 0) = true ∧ ∀ j, j < k → p (l.getD j 0) = false := by
  intro l
  induction l with
  | nil => intro k h; simp [List.findIdx?] at h
  | cons x xs ih =>
      intro k h
      rw [List.findIdx?_cons] at h
      by_cases hx : p x
      · simp only [hx, if_true, Option.some_inj] at h
        subst h
        exact ⟨by simp, by simpa using hx, by omega⟩
      · simp only [hx, Bool.false_eq_true, if_false, List.findIdx?_succ] at h
        rcases Option.map_eq_some'.mp h with ⟨j, hj, hjk⟩
        obtain ⟨hlen, hsat, hfirst⟩ := ih hj
        subst hjk
        refine ⟨by simpa using hlen, by simpa using hsat, ?_⟩
        intro i hi
        match i with
        | 0 => simpa using hx
        | i + 1 =>
            have := hfirst i (by omega)
            simpa using this

theorem findIdx?_isSome {p : Nat → Bool} {l : List Nat} {x : Nat}
    (hx : x ∈ l) (hp : p x = true) : (l.findIdx? p).isSome := by
  rcases hfind : l.findIdx? p with _ | k
  · rw [List.findIdx?_eq_none_iff] at hfind
    have := hfind x hx
    rw [hp] at this
    cases this
  · rfl

/-- The last element (via `getLast?`) is a member of the list. -/
theorem getLast?_mem_self : ∀ {l : List Nat} {t : Nat}, l.getLast? = some t → t ∈ l
  | [], _, h => by simp at h
  | [a], t, h => by
      simp only [List.getLast?_singleton, Option.some_inj] at h
      simp [h]
  | _ :: b :: l, t, h => by
      rw [List.getLast?_cons_cons] at h
      exact List.mem_cons_of_mem _ (getLast?_mem_self h)

theorem getD_mem_of_lt {l : List Nat} {k : Nat} (h : k < l.length) :
    l.getD k 0 ∈ l := by
  rw [List.getD_eq_getElem l 0 h]
  exact List.getElem_mem _

/-- Every element of a `≤`-sorted list is at most its last element. -/
theorem sorted_le_getLast : ∀ {l : List Nat} {t : Nat},
    l.Sorted (· ≤ ·) → l.getLast? = some t → ∀ x ∈ l, x ≤ t
  | [], _, _, hlast => by simp at hlast
  | [a], t, _, hlast => by
      simp only [List.getLast?_singleton, Option.some_inj] at hlast
      intro x hx
      simp only [List.mem_singleton] at hx
      omega
  | a :: b :: l, t, hs, hlast => by
      rcases List.sorted_cons.mp hs with ⟨ha, hl⟩
      rw [List.getLast?_cons_cons] at hlast
      intro x hx
      rcases List.mem_cons.mp hx with rfl | hx'
      · exact ha t (getLast?_mem_self hlast)
      · exact sorted_le_getLast hl hlast x hx'

/-- Main lemma for `decode_icdf`: under the table validity enjoyed by
every table in the program it succeeds, preserves the invariant, and
returns the symbol index whose cumulative interval contains the scaled
decoder value. -/
theorem decode_icdf_spec {s : RState} {t : ICDFContext}
    (hInv : Inv s)
    (htot : 0 < t.total) (htot2 : t.total ≤ CODE_BOT)
    (hsorted : t.dist.Sorted (· ≤ ·))
    (hlast : t.dist.getLast? = some t.total) :
    ∃ k s', decode_icdf s t = some (k, s') ∧ Inv s' ∧ k < t.dist.length ∧
      (if k = 0 then 0 else t.dist.getD (k - 1) 0)
        ≤ t.total - min (s.value / (s.range / t.total) + 1) t.total ∧
      t.total - min (s.value / (s.range / t.total) + 1) t.total
        < t.dist.getD k 0 := by
  obtain ⟨h1, h2, h3⟩ := hInv
  have htr : t.total ≤ s.range := le_trans htot2 (le_of_lt h1)
  have hscale : 0 < s.range / t.total := Nat.div_pos htr htot
  generalize hq : s.value / (s.range / t.total) = q
  have hgss : get_scale_symbol s t.total =
      some (s.range / t.total, t.total - min (q + 1) t.total) := by
    rw [get_scale_symbol, if_neg (by omega), if_neg (by omega), hq]
  have hsym_lt : t.total - min (q + 1) t.total < t.total :=
    Nat.sub_lt htot (lt_of_lt_of_le Nat.zero_lt_one (le_min (by omega) htot))
  generalize hsymdef : t.total - min (q + 1) t.total = sym at hgss hsym_lt ⊢
  have hfind : ∃ k, t.dist.findIdx? (fun v => sym < v) = some k := by
    have hmem : t.total ∈ t.dist := getLast?_mem_self hlast
    have hsome := @findIdx?_isSome (fun v => decide (sym < v)) t.dist t.total
      hmem (by simpa using hsym_lt)
    rcases hk : t.dist.findIdx? (fun v => decide (sym < v)) with _ | k
    · rw [hk] at hsome
      cases hsome
    · exact ⟨k, rfl⟩
  obtain ⟨k, hfindk⟩ := hfind
  obtain ⟨hklen, hkp, hkfirst⟩ := findIdx?_spec hfindk
  simp only [decide_eq_true_eq] at hkp
  have hhigh_le : t.dist.getD k 0 ≤ t.total :=
    sorted_le_getLast hsorted hlast _ (getD_mem_of_lt hklen)
  have hlow_le : (if k = 0 then 0 else t.dist.getD (k - 1) 0) ≤ sym := by
    rcases Nat.eq_zero_or_pos k with hk0 | hkpos
    · simp [hk0]
    · have hfst : ¬ (sym < t.dist.getD (k - 1) 0) := by
        simpa using hkfirst (k - 1) (by omega)
      rw [if_neg (by omega)]
      omega
  obtain ⟨s', hupd, hinv'⟩ := @update_spec s (s.range / t.total)
    (if k = 0 then 0 else t.dist.getD (k - 1) 0)
    (t.dist.getD k 0) t.total ⟨h1, h2, h3⟩
    hscale
    (Nat.div_mul_le_self _ _)
    (by
      rcases Nat.eq_zero_or_pos k with hk0 | hkpos
      · rw [if_pos hk0]
        omega
      · rw [if_neg (by omega)] at hlow_le ⊢
        omega)
    hhigh_le
    (by rw [hq, hsymdef]; exact hkp)
    (by rw [hq, hsymdef]; exact hlow_le)
  refine ⟨k, s', ?_, hinv', hklen, hlow_le, hkp⟩
  have hlowshape : (if 0 < k then t.dist.getD (k - 1) 0 else 0)
      = (if k = 0 then 0 else t.dist.getD (k - 1) 0) := by
    rcases Nat.eq_zero_or_pos k with hk0 | hkpos
    · simp [hk0]
    · rw [if_pos hkpos, if_neg (by omega)]
  rw [decode_icdf, hgss]
  simp only [Option.pure_def, Option.bind_eq_bind, Option.some_bind]
  rw [hfindk]
  simp only [gt_iff_lt, hlowshape, hupd, Option.some_bind]

theorem ilogGo_spec : ∀ (fuel n : Nat), 1 ≤ n → n ≤ fuel →
    n < 2 ^ (ilogGo fuel n + 1)
  | 0, n, h1, h2 => by omega
  | fuel + 1, n, h1, h2 => by
      rw [ilogGo]
      split
      · next hle =>
        have : (2 : Nat) ^ (0 + 1) = 2 := by norm_num
        omega
      · next hgt =>
        push_neg at hgt
        have hIH := ilogGo_spec fuel (n / 2) (by omega) (by omega)
        have hpow : (2 : Nat) ^ (ilogGo fuel (n / 2) + 1 + 1)
            = 2 * 2 ^ (ilogGo fuel (n / 2) + 1) := by
          rw [pow_succ]
          ring
        omega

/-- `n` is below `2 ^ ilog n`. -/
theorem lt_two_pow_ilog (n : Nat) : n < 2 ^ ilog n := by
  rw [ilog]
  split
  · next h => simp [h]
  · next h => exact ilogGo_spec n n (by omega) le_rfl

/-- `get_scale_symbol` followed by `update` on the symbol's own unit
interval (the `decode_uniform` pattern) succeeds and preserves the
invariant. -/
theorem gss_update_spec {s : RState} {total : Nat} (hInv : Inv s)
    (htot : 0 < total) (htot2 : total ≤ CODE_BOT) :
    ∃ sym s', get_scale_symbol s total = some (s.range / total, sym) ∧
      update s (s.range / total) sym (sym + 1) total = some s' ∧ Inv s' := by
  obtain ⟨h1, h2, h3⟩ := hInv
  have htr : total ≤ s.range := le_trans htot2 (le_of_lt h1)
  have hscale : 0 < s.range / total := Nat.div_pos htr htot
  generalize hq : s.value / (s.range / total) = q
  have hgss : get_scale_symbol s total =
      some (s.range / total, total - min (q + 1) total) := by
    rw [get_scale_symbol, if_neg (by omega), if_neg (by omega), hq]
  have hsym_lt : total - min (q + 1) total < total :=
    Nat.sub_lt htot (lt_of_lt_of_le Nat.zero_lt_one (le_min (by omega) htot))
  generalize hsymdef : total - min (q + 1) total = sym at hgss hsym_lt
  obtain ⟨s', hupd, hinv'⟩ := @update_spec s (s.range / total) sym (sym + 1)
    total ⟨h1, h2, h3⟩
    hscale
    (Nat.div_mul_le_self _ _)
    (by omega)
    (by omega)
    (by rw [hq, hsymdef]; omega)
    (by rw [hq, hsymdef])
  exact ⟨sym, s', hgss, hupd, hinv'⟩

theorem decode_uniform_inv {s : RState} {len kk : Nat} {s' : RState}
    (hInv : Inv s) (hlen : 0 < len)
    (hd : decode_uniform s len = some (kk, s')) : Inv s' := by
  have hlt := lt_two_pow_ilog (len - 1)
  have htot_pos : 0 < (if ilog (len - 1) > UNI_BITS
      then ((len - 1) >>> (ilog (len - 1) - UNI_BITS)) + 1 else len) := by
    split
    · exact Nat.succ_pos _
    · omega
  have htot_le : (if ilog (len - 1) > UNI_BITS
      then ((len - 1) >>> (ilog (len - 1) - UNI_BITS)) + 1 else len)
      ≤ CODE_BOT := by
    rw [CODE_BOT_eq]
    split
    · next hgt =>
      have hdivlt : (len - 1) >>> (ilog (len - 1) - UNI_BITS) < 2 ^ UNI_BITS := by
        rw [Nat.shiftRight_eq_div_pow]
        refine (Nat.div_lt_iff_lt_mul (by positivity)).mpr ?_
        calc len - 1 < 2 ^ ilog (len - 1) := hlt
          _ = 2 ^ UNI_BITS * 2 ^ (ilog (len - 1) - UNI_BITS) := by
              rw [← pow_add]
              congr 1
              simp only [UNI_BITS] at hgt ⊢
              omega
          _ = 2 ^ UNI_BITS * 2 ^ (ilog (len - 1) - UNI_BITS) := rfl
      simp only [UNI_BITS] at hdivlt ⊢
      omega
    · next hle =>
      push_neg at hle
      have hlen8 : len - 1 < 2 ^ 8 := by
        calc len - 1 < 2 ^ ilog (len - 1) := hlt
          _ ≤ 2 ^ 8 := Nat.pow_le_pow_right (by norm_num)
              (by simpa [UNI_BITS] using hle)
      omega
  obtain ⟨sym, s'', hgss, hupd, hinv''⟩ := gss_update_spec hInv htot_pos htot_le
  rw [decode_uniform, if_neg (by omega)] at hd
  simp only [hgss, Option.pure_def, Option.bind_eq_bind, Option.some_bind,
    hupd] at hd
  split at hd
  · rw [Option.some_inj] at hd
    simp only [Prod.mk.injEq] at hd
    obtain ⟨-, hs2⟩ := hd
    rw [← hs2]
    exact hinv''
  · rw [Option.some_inj] at hd
    simp only [Prod.mk.injEq] at hd
    obtain ⟨-, hs2⟩ := hd
    rw [← hs2]
    exact hinv''

theorem reachable_inv {s : RState} (h : Reachable s) : Inv s := by
  induction h with
  | mk_new buf => exact new_inv buf
  | step_logp logp _ ih => exact decode_logp_inv ih logp
  | @step_icdf s s' t k _ htot htot2 hsorted hlast hd ih =>
      obtain ⟨k', s'', heq, hinv', _, _, _⟩ :=
        decode_icdf_spec ih htot htot2 hsorted hlast
      rw [heq, Option.some_inj] at hd
      have hss : s'' = s' := congrArg Prod.snd hd
      rw [← hss]
      exact hinv'
  | step_uniform _ hlen hd ih => exact decode_uniform_inv ih hlen hd

end RangeDecoder

/-! ## Claims about the range decoder -/

/-- C2: For every `RangeDecoder`, after construction
(`RangeDecoder::new`) and after every decode operation (`decode_logp`,
`decode_icdf`, `decode_uniform`), the state satisfies
`0 < range ≤ 2^31`; normalization restores this bound after each
decode.  (`Reachable` is exactly closure under construction and the
three decode operations.) -/
theorem claim_C2_range_invariant {s : RState} (h : RangeDecoder.Reachable s) :
    0 < s.range ∧ s.range ≤ 2 ^ 31 := by
  obtain ⟨h1, h2, _⟩ := RangeDecoder.reachable_inv h
  rw [CODE_BOT_eq] at h1
  rw [CODE_TOP_eq] at h2
  exact ⟨by omega, h2⟩

/-- Witness for C2 at the concrete one-byte packet `[85]`. -/
theorem claim_C2_range_invariant_witness :
    0 < (RangeDecoder.new [85]).range ∧ (RangeDecoder.new [85]).range ≤ 2 ^ 31 :=
  claim_C2_range_invariant (RangeDecoder.Reachable.mk_new [85])

/-- C9: For every reachable `RangeDecoder` state (in particular, any
state with `value < range`), `decode_logp(0)` returns `true`: the
probability scale collapses to the full range, which exceeds `value`. -/
theorem claim_C9_decode_logp_zero_true {s : RState}
    (h : RangeDecoder.Reachable s ∨ s.value < s.range) :
    (RangeDecoder.decode_logp s 0).1 = true := by
  have hvr : s.value < s.range := by
    rcases h with h | h
    · exact (RangeDecoder.reachable_inv h).2.2
    · exact h
  rw [RangeDecoder.decode_logp]
  have hshift : s.range >>> 0 = s.range := Nat.shiftRight_zero
  rw [hshift, if_pos hvr]

/-- Witness for C9 at a concrete state with `value < range`. -/
theorem claim_C9_decode_logp_zero_true_witness :
    (⟨[], 0, 0, 2 ^ 31, 0, 33⟩ : RState).value < (⟨[], 0, 0, 2 ^ 31, 0, 33⟩ : RState).range ∧
    (RangeDecoder.decode_logp ⟨[], 0, 0, 2 ^ 31, 0, 33⟩ 0).1 = true :=
  ⟨by decide, claim_C9_decode_logp_zero_true (Or.inr (by decide))⟩

/-- C5: For every `ICDFContext` with an ascending `dist` whose last
entry equals `total` (and totals in the decodable range `0 < total ≤
2^23`, as for every table of this program), and every reachable decoder
state, `decode_icdf` returns an index `k` such that the scaled decoder
value `s = total - min(value/scale + 1, total)` (with
`scale = range/total`) satisfies `dist[k-1] ≤ s < dist[k]`, taking
`dist[-1] = 0`. -/
theorem claim_C5_icdf_symbol_interval {s : RState} {t : ICDFContext}
    (hreach : RangeDecoder.Reachable s)
    (hasc : t.dist.Sorted (· ≤ ·))
    (hlast : t.dist.getLast? = some t.total)
    (htot : 0 < t.total) (htot2 : t.total ≤ 2 ^ 23) :
    ∃ k s', RangeDecoder.decode_icdf s t = some (k, s') ∧
      (if k = 0 then 0 else t.dist.getD (k - 1) 0)
        ≤ t.total - min (s.value / (s.range / t.total) + 1) t.total ∧
      t.total - min (s.value / (s.range / t.total) + 1) t.total
        < t.dist.getD k 0 := by
  obtain ⟨k, s', heq, _, _, hlow, hhigh⟩ :=
    RangeDecoder.decode_icdf_spec (RangeDecoder.reachable_inv hreach) htot
      (by rw [CODE_BOT_eq]; exact htot2) hasc hlast
  exact ⟨k, s', heq, hlow, hhigh⟩

/-- Witness for C5: the freshly constructed decoder on packet `[0]`
with the `MODEL_SPREAD` table. -/
theorem claim_C5_icdf_symbol_interval_witness :
    ∃ k s', RangeDecoder.decode_icdf (RangeDecoder.new [0]) MODEL_SPREAD = some (k, s') ∧
      (if k = 0 then 0 else MODEL_SPREAD.dist.getD (k - 1) 0)
        ≤ MODEL_SPREAD.total -
          min ((RangeDecoder.new [0]).value /
            ((RangeDecoder.new [0]).range / MODEL_SPREAD.total) + 1) MODEL_SPREAD.total ∧
      MODEL_SPREAD.total -
          min ((RangeDecoder.new [0]).value /
            ((RangeDecoder.new [0]).range / MODEL_SPREAD.total) + 1) MODEL_SPREAD.total
        < MODEL_SPREAD.dist.getD k 0 :=
  claim_C5_icdf_symbol_interval (RangeDecoder.Reachable.mk_new [0])
    (by decide) (by decide) (by decide) (by decide)

/-- C10: For every reachable `RangeDecoder` state (whose `range`
exceeds `2^23` after normalization) and every `ICDFContext` (ascending,
per the data model) whose `total` is nonzero, at most `2^23`, and whose
last `dist` entry equals `total`, `decode_icdf` never panics: the scale
division is by a nonzero value, the position search always finds an
index, and the interval update succeeds. -/
theorem claim_C10_icdf_never_panics {s : RState} {t : ICDFContext}
    (hreach : RangeDecoder.Reachable s)
    (hasc : t.dist.Sorted (· ≤ ·))
    (htot : 0 < t.total) (htot2 : t.total ≤ 2 ^ 23)
    (hlast : t.dist.getLast? = some t.total) :
    (RangeDecoder.decode_icdf s t).isSome := by
  obtain ⟨k, s', heq, _, _, _, _⟩ :=
    RangeDecoder.decode_icdf_spec (RangeDecoder.reachable_inv hreach) htot
      (by rw [CODE_BOT_eq]; exact htot2) hasc hlast
  rw [heq]
  rfl

/-- Witness for C10: the freshly constructed decoder on packet `[0]`
with the `ALLOC_TRIM` table. -/
theorem claim_C10_icdf_never_panics_witness :
    (RangeDecoder.decode_icdf (RangeDecoder.new [0]) ALLOC_TRIM).isSome :=
  claim_C10_icdf_never_panics (RangeDecoder.Reachable.mk_new [0])
    (by decide) (by decide) (by decide) (by decide)

/-! ## Claims about the CELT frame decoder -/

/-- C6 counterexample: the source guards the intra flag with
`rd.available() > 3`, not `≥ 3`.  At a decoder state with exactly 3
bits of remaining budget, the intra decision of `decode_coarse_energy`
decodes nothing (inter model, state unchanged), although decoding the
flag would have consumed the budget and changed the state. -/
theorem claim_C6_intra_guard_counterexample :
    RangeDecoder.available ⟨[0, 0], 0, 0, 2 ^ 24, 0, 38⟩ = 3 ∧
    Celt.coarseIntraDecision ⟨[0, 0], 0, 0, 2 ^ 24, 0, 38⟩
      = (false, ⟨[0, 0], 0, 0, 2 ^ 24, 0, 38⟩) ∧
    (RangeDecoder.decode_logp ⟨[0, 0], 0, 0, 2 ^ 24, 0, 38⟩ 3).2
      ≠ ⟨[0, 0], 0, 0, 2 ^ 24, 0, 38⟩ := by decide

/-- C6 (amended): the intra-model flag is decoded exactly when *more*
than 3 bits remain; with `available() ≤ 3` the inter model is used and
the whole coarse decode proceeds from the unchanged decoder state. -/
theorem claim_C6_intra_guard (lap : LaplaceFn) (c : Celt) {rd : RState}
    (bstart bend : Nat) (h : RangeDecoder.available rd ≤ 3) :
    Celt.coarseIntraDecision rd = (false, rd) ∧
    Celt.decode_coarse_energy lap c rd bstart bend =
      (Celt.coarseLoop lap c.stereo_pkt (ALPHA_COEF.getD c.lm 0)
        (BETA_COEF.getD c.lm 0) (COARSE_ENERGY_INTER.getD c.lm []) bstart bend
        MAX_BANDS 0 c.frame0.energy c.frame1.energy 0 0 rd).map
        (fun r => (r.1, r.2.1, r.2.2.2.2, false)) := by
  have hdec : Celt.coarseIntraDecision rd = (false, rd) := by
    rw [Celt.coarseIntraDecision, if_neg (by omega)]
  refine ⟨hdec, ?_⟩
  rw [Celt.decode_coarse_energy, hdec]
  simp only [Bool.false_eq_true, if_false, ite_false]
  rcases hloop : Celt.coarseLoop lap c.stereo_pkt (ALPHA_COEF.getD c.lm 0)
      (BETA_COEF.getD c.lm 0) (COARSE_ENERGY_INTER.getD c.lm []) bstart bend
      MAX_BANDS 0 c.frame0.energy c.frame1.energy 0 0 rd with _ | v
  · simp
  · simp

/-- Witness for C6's amended theorem at the concrete 3-bits-left state. -/
theorem claim_C6_intra_guard_witness :
    RangeDecoder.available ⟨[0, 0], 0, 0, 2 ^ 24, 0, 38⟩ ≤ 3 ∧
    (Celt.coarseIntraDecision ⟨[0, 0], 0, 0, 2 ^ 24, 0, 38⟩
        = (false, ⟨[0, 0], 0, 0, 2 ^ 24, 0, 38⟩) ∧
      Celt.decode_coarse_energy lapZero (Celt.new false)
          ⟨[0, 0], 0, 0, 2 ^ 24, 0, 38⟩ 0 21 =
        (Celt.coarseLoop lapZero (Celt.new false).stereo_pkt
          (ALPHA_COEF.getD (Celt.new false).lm 0)
          (BETA_COEF.getD (Celt.new false).lm 0)
          (COARSE_ENERGY_INTER.getD (Celt.new false).lm []) 0 21
          MAX_BANDS 0 (Celt.new false).frame0.energy
          (Celt.new false).frame1.energy 0 0
          ⟨[0, 0], 0, 0, 2 ^ 24, 0, 38⟩).map
          (fun r => (r.1, r.2.1, r.2.2.2.2, false))) :=
  ⟨by decide, claim_C6_intra_guard lapZero (Celt.new false) 0 21 (by decide)⟩

/-- Auxiliary: `List.set` at a different index leaves `getD` unchanged. -/
theorem getD_set_ne {α : Type} (l : List α) (i j : Nat) (v d : α) (h : i ≠ j) :
    (l.set i v).getD j d = l.getD j d := by
  simp [List.getD_eq_getElem?_getD, List.getElem?_set_ne h]

/-- Auxiliary: `List.set` at an in-range index updates `getD` there. -/
theorem getD_set_eq {α : Type} (l : List α) (i : Nat) (v d : α)
    (h : i < l.length) : (l.set i v).getD i d = v := by
  simp [List.getD_eq_getElem?_getD, List.getElem?_set_self, h]

/-- Auxiliary: the tf band loop never touches the `tf_changed`/`spent`
entries below its current band index. -/
theorem tfLoop_preserve (bend b2 : Nat) (sb : Bool) :
    ∀ fuel i st j, j < i →
      (Celt.tfLoop bend b2 sb fuel i st).tf_changed.getD j false
          = st.tf_changed.getD j false ∧
      (Celt.tfLoop bend b2 sb fuel i st).spent.getD j false
          = st.spent.getD j false := by
  intro fuel
  induction fuel with
  | zero => intro i st j h; exact ⟨rfl, rfl⟩
  | succ fuel ih =>
      intro i st j h
      rw [Celt.tfLoop]
      by_cases hib : i < bend
      · rw [if_pos hib]
        by_cases hg : st.field_bits + (if sb then 1 else 0) < st.avail
        · rw [if_pos hg]
          rcases hdl : RangeDecoder.decode_logp st.rd st.field_bits with ⟨d, rd'⟩
          obtain ⟨h1, h2⟩ := ih (i + 1)
            { rd := rd', avail := RangeDecoder.available rd',
              diff := xor st.diff d, changed := st.changed || xor st.diff d,
              tf_changed := st.tf_changed.set i (xor st.diff d),
              spent := st.spent.set i true, field_bits := b2 } j (by omega)
          exact ⟨h1.trans (getD_set_ne _ _ _ _ _ (by omega)),
                 h2.trans (getD_set_ne _ _ _ _ _ (by omega))⟩
        · rw [if_neg hg]
          obtain ⟨h1, h2⟩ := ih (i + 1)
            { rd := st.rd, avail := st.avail, diff := st.diff,
              changed := st.changed,
              tf_changed := st.tf_changed.set i st.diff,
              spent := st.spent.set i false, field_bits := b2 } j (by omega)
          exact ⟨h1.trans (getD_set_ne _ _ _ _ _ (by omega)),
                 h2.trans (getD_set_ne _ _ _ _ _ (by omega))⟩
      · rw [if_neg hib]; exact ⟨rfl, rfl⟩

/-- Auxiliary: in the tf band loop, a band whose probability bits are
not spent records the running `diff` unchanged: its `tf_changed` entry
equals the previous band's entry (or the incoming `diff` for the first
band of the run). -/
theorem tfLoop_unspent (bend b2 : Nat) (sb : Bool) (hbend : bend ≤ MAX_BANDS) :
    ∀ fuel i st, bend ≤ i + fuel →
      st.tf_changed.length = MAX_BANDS → st.spent.length = MAX_BANDS →
      ∀ j, i ≤ j → j < bend →
        (Celt.tfLoop bend b2 sb fuel i st).spent.getD j false = false →
        (Celt.tfLoop bend b2 sb fuel i st).tf_changed.getD j false
          = if j = i then st.diff
            else (Celt.tfLoop bend b2 sb fuel i st).tf_changed.getD (j - 1)
              false := by
  intro fuel
  induction fuel with
  | zero => intro i st hf _ _ j hj1 hj2 _; omega
  | succ fuel ih =>
      intro i st hf hlen1 hlen2 j hj1 hj2 hsp
      have hib : i < bend := by omega
      rw [Celt.tfLoop, if_pos hib] at hsp ⊢
      by_cases hg : st.field_bits + (if sb then 1 else 0) < st.avail
      · rw [if_pos hg] at hsp ⊢
        rcases hdl : RangeDecoder.decode_logp st.rd st.field_bits with ⟨d, rd'⟩
        rw [hdl] at hsp
        rcases Nat.lt_or_ge i j with hij | hij
        · have hrec := ih (i + 1)
            { rd := rd', avail := RangeDecoder.available rd',
              diff := xor st.diff d, changed := st.changed || xor st.diff d,
              tf_changed := st.tf_changed.set i (xor st.diff d),
              spent := st.spent.set i true, field_bits := b2 }
            (by omega) (by simpa using hlen1) (by simpa using hlen2)
            j (by omega) hj2 hsp
          rw [if_neg (by omega : ¬ j = i)]
          refine hrec.trans ?_
          by_cases hji : j = i + 1
          · rw [if_pos hji]
            have hpres := (tfLoop_preserve bend b2 sb fuel (i + 1)
              { rd := rd', avail := RangeDecoder.available rd',
                diff := xor st.diff d, changed := st.changed || xor st.diff d,
                tf_changed := st.tf_changed.set i (xor st.diff d),
                spent := st.spent.set i true, field_bits := b2 } i
              (by omega)).1
            have hj1i : j - 1 = i := by omega
            rw [hj1i]
            exact (hpres.trans (getD_set_eq _ _ _ _ (by omega))).symm
          · rw [if_neg hji]
        · have hji : j = i := by omega
          subst hji
          have hpres := (tfLoop_preserve bend b2 sb fuel (j + 1)
            { rd := rd', avail := RangeDecoder.available rd',
              diff := xor st.diff d, changed := st.changed || xor st.diff d,
              tf_changed := st.tf_changed.set j (xor st.diff d),
              spent := st.spent.set j true, field_bits := b2 } j (by omega)).2
          have hsp2 := Eq.trans hpres.symm hsp
          have hsp3 := Eq.trans (getD_set_eq st.spent j true false
            (by omega)).symm hsp2
          exact absurd hsp3 (by decide)
      · rw [if_neg hg] at hsp ⊢
        rcases Nat.lt_or_ge i j with hij | hij
        · have hrec := ih (i + 1)
            { rd := st.rd, avail := st.avail, diff := st.diff,
              changed := st.changed,
              tf_changed := st.tf_changed.set i st.diff,
              spent := st.spent.set i false, field_bits := b2 }
            (by omega) (by simpa using hlen1) (by simpa using hlen2)
            j (by omega) hj2 hsp
          rw [if_neg (by omega : ¬ j = i)]
          refine hrec.trans ?_
          by_cases hji : j = i + 1
          · rw [if_pos hji]
            have hpres := (tfLoop_preserve bend b2 sb fuel (i + 1)
              { rd := st.rd, avail := st.avail, diff := st.diff,
                changed := st.changed,
                tf_changed := st.tf_changed.set i st.diff,
                spent := st.spent.set i false, field_bits := b2 } i
              (by omega)).1
            have hj1i : j - 1 = i := by omega
            rw [hj1i]
            exact (hpres.trans (getD_set_eq _ _ _ _ (by omega))).symm
          · rw [if_neg hji]
        · have hji : j = i := by omega
          subst hji
          rw [if_pos rfl]
          have hpres := (tfLoop_preserve bend b2 sb fuel (j + 1)
            { rd := st.rd, avail := st.avail, diff := st.diff,
              changed := st.changed,
              tf_changed := st.tf_changed.set j st.diff,
              spent := st.spent.set j false, field_bits := b2 } j (by omega)).1
          exact hpres.trans (getD_set_eq _ _ _ _ (by omega))

/-- C7 counterexample: at a decoder state whose budget runs out after
band 0, band 1's probability bits are not spent, yet the `tf_changed`
flag used for band 1 is `true` (the running `diff` from band 0), not
`false` as the claim asserts. -/
theorem claim_C7_tf_unspent_counterexample :
    (Celt.decode_tf_changes (Celt.new false) ⟨[0], 8, 0, 2 ^ 24, 0, 28⟩
      0 2 false).spent.getD 1 false = false ∧
    (Celt.decode_tf_changes (Celt.new false) ⟨[0], 8, 0, 2 ^ 24, 0, 28⟩
      0 2 false).tf_changed.getD 1 false = true := by decide

/-- C7 (amended): in `decode_tf_changes`, a band whose probability bits
are not spent keeps the running `diff` of the most recent earlier band:
its `tf_changed` entry equals the previous band's entry, and is `false`
only for the first band of the decoded range. -/
theorem claim_C7_tf_unspent (c : Celt) (rd : RState) {bstart bend : Nat}
    (transient : Bool) (hbend : bend ≤ MAX_BANDS) {j : Nat}
    (hj1 : bstart ≤ j) (hj2 : j < bend)
    (hspent : (Celt.decode_tf_changes c rd bstart bend transient).spent.getD j
      false = false) :
    (Celt.decode_tf_changes c rd bstart bend transient).tf_changed.getD j false
      = if j = bstart then false
        else (Celt.decode_tf_changes c rd bstart bend transient).tf_changed.getD
          (j - 1) false :=
  tfLoop_unspent bend _ _ hbend bend bstart _ (by omega) (by simp) (by simp)
    j hj1 hj2 hspent

/-- Witness for C7's amended theorem: at the counterexample state, band
1 is unspent and its flag equals band 0's flag. -/
theorem claim_C7_tf_unspent_witness :
    (2 : Nat) ≤ MAX_BANDS ∧ (0 : Nat) ≤ 1 ∧ (1 : Nat) < 2 ∧
    (Celt.decode_tf_changes (Celt.new false) ⟨[0], 8, 0, 2 ^ 24, 0, 28⟩
      0 2 false).spent.getD 1 false = false ∧
    (Celt.decode_tf_changes (Celt.new false) ⟨[0], 8, 0, 2 ^ 24, 0, 28⟩
      0 2 false).tf_changed.getD 1 false
      = if 1 = 0 then false
        else (Celt.decode_tf_changes (Celt.new false) ⟨[0], 8, 0, 2 ^ 24, 0, 28⟩
          0 2 false).tf_changed.getD (1 - 1) false :=
  ⟨by decide, by decide, by decide, by decide,
    claim_C7_tf_unspent (Celt.new false) ⟨[0], 8, 0, 2 ^ 24, 0, 28⟩ false
      (by decide) (by decide) (by decide) (by decide)⟩

/-- C8 counterexample: the source guards the spread decode with
`rd.available() > 4`, not `≥ 4`.  At a state with exactly 4 bits left
the spread step returns the default without touching the decoder,
although an actual `MODEL_SPREAD` decode would have changed the state. -/
theorem claim_C8_spread_guard_counterexample :
    RangeDecoder.available ⟨[0, 0], 0, 0, 2 ^ 24, 0, 37⟩ = 4 ∧
    Celt.decodeSpread ⟨[0, 0], 0, 0, 2 ^ 24, 0, 37⟩
      = some (SPREAD_NORMAL, ⟨[0, 0], 0, 0, 2 ^ 24, 0, 37⟩) ∧
    (RangeDecoder.decode_icdf ⟨[0, 0], 0, 0, 2 ^ 24, 0, 37⟩ MODEL_SPREAD).map
        Prod.snd ≠ some ⟨[0, 0], 0, 0, 2 ^ 24, 0, 37⟩ := by decide

/-- C8 (amended): `spread` is decoded via `MODEL_SPREAD` exactly when
*more* than 4 bits remain; with `available() ≤ 4` the spread step
defaults to `SPREAD_NORMAL` without consuming bits, and any successful
`decode_allocation` from such a state reports the default spread. -/
theorem claim_C8_spread_guard (c : Celt) {rd : RState} (bstart bend : Nat)
    (h : RangeDecoder.available rd ≤ 4) :
    Celt.decodeSpread rd = some (SPREAD_NORMAL, rd) ∧
    ∀ out, Celt.decode_allocation c rd bstart bend = some out →
      out.spread = SPREAD_NORMAL := by
  have hspread : Celt.decodeSpread rd = some (SPREAD_NORMAL, rd) := by
    rw [Celt.decodeSpread, if_neg (by omega)]
  refine ⟨hspread, ?_⟩
  intro out hd
  rw [Celt.decode_allocation] at hd
  rw [hspread] at hd
  simp only [Option.pure_def, Option.bind_eq_bind, Option.some_bind] at hd
  obtain ⟨tpair, htrim, hd2⟩ := Option.bind_eq_some.mp hd
  obtain ⟨alloc_trim, rd3⟩ := tpair
  simp only [] at hd2
  obtain ⟨bpair, hbis, hd3⟩ := Option.bind_eq_some.mp hd2
  rw [Option.some_inj] at hd3
  rw [← hd3]

/-- Witness for C8's amended theorem at the concrete 4-bits-left state. -/
theorem claim_C8_spread_guard_witness :
    RangeDecoder.available ⟨[0, 0], 0, 0, 2 ^ 24, 0, 37⟩ ≤ 4 ∧
    (Celt.decodeSpread ⟨[0, 0], 0, 0, 2 ^ 24, 0, 37⟩
        = some (SPREAD_NORMAL, ⟨[0, 0], 0, 0, 2 ^ 24, 0, 37⟩) ∧
      ∀ out, Celt.decode_allocation (Celt.new false)
          ⟨[0, 0], 0, 0, 2 ^ 24, 0, 37⟩ 0 21 = some out →
        out.spread = SPREAD_NORMAL) :=
  ⟨by decide, claim_C8_spread_guard (Celt.new false) 0 21 (by decide)⟩

/-- Auxiliary: a list of nonnegative integers has nonnegative `getD`. -/
theorem getD_int_nonneg {l : List Int} (h : ∀ x ∈ l, 0 ≤ x) (i : Nat) :
    0 ≤ l.getD i 0 := by
  rcases Nat.lt_or_ge i l.length with hi | hi
  · rw [List.getD_eq_getElem l 0 hi]
    exact h _ (List.getElem_mem _)
  · rw [List.getD_eq_default _ _ hi]

/-- Auxiliary: every per-band cap is nonnegative (each entry is a cast
of a natural number). -/
theorem capsList_nonneg (lm : Nat) (st : Bool) (i : Nat) :
    0 ≤ (Celt.capsList lm st).getD i 0 := by
  refine getD_int_nonneg ?_ i
  intro x hx
  rw [Celt.capsList] at hx
  obtain ⟨n, _, hn⟩ := List.mem_map.mp hx
  rw [← hn]
  exact Int.natCast_nonneg _

/-- Auxiliary: band membership in the reversed assignment order. -/
theorem mem_bandRev {bstart bend j : Nat} (h1 : bstart ≤ j) (h2 : j < bend) :
    j ∈ Celt.bandRev bstart bend := by
  rw [Celt.bandRev, List.mem_reverse, List.mem_range'_1]
  omega

/-- Auxiliary: an `if _ then none else _` that produced a value did not
take the `none` branch. -/
theorem ite_none_some {α : Type} {c : Prop} [Decidable c] {x : α}
    {y : Option α} (h : (if c then none else y) = some x) : y = some x := by
  by_cases hc : c
  · rw [if_pos hc] at h
    cases h
  · rwa [if_neg hc] at h

/-- Auxiliary: the final assignment loop never writes a band above its
cap: every write is of the form `min _ caps[i]`, entries outside the
visited set keep their (assumed-capped) values, and out-of-range writes
leave the default `0 ≤ caps[i]`. -/
theorem assignLoop_le_caps (threshold caps : List Int) (ccb : Int)
    (bits1 bits2 : List Int) (il : Nat) (hcaps : ∀ i, 0 ≤ caps.getD i 0) :
    ∀ (rev : List Nat) (done : Bool) (pulses : List Int) (j : Nat),
      (j ∈ rev ∨ pulses.getD j 0 ≤ caps.getD j 0) →
      (Celt.assignLoop threshold caps ccb bits1 bits2 il rev done
        pulses).getD j 0 ≤ caps.getD j 0 := by
  intro rev
  induction rev with
  | nil =>
      intro done pulses j h
      rcases h with h | h
      · cases h
      · exact h
  | cons i rest ih =>
      intro done pulses j h
      have key : ∀ (d' : Bool) (v : Int),
          (Celt.assignLoop threshold caps ccb bits1 bits2 il rest d'
            (pulses.set i (min v (caps.getD i 0)))).getD j 0
            ≤ caps.getD j 0 := by
        intro d' v
        apply ih
        by_cases hjr : j ∈ rest
        · exact Or.inl hjr
        · refine Or.inr ?_
          by_cases hji : j = i
          · subst hji
            rcases Nat.lt_or_ge j pulses.length with hl | hl
            · rw [getD_set_eq _ _ _ _ hl]
              exact min_le_right _ _
            · rw [List.getD_eq_default]
              · exact hcaps j
              · simpa using hl
          · rw [getD_set_ne _ _ _ _ _ (fun hh => hji hh.symm)]
            rcases h with h | h
            · rcases List.mem_cons.mp h with h | h
              · exact absurd h hji
              · exact absurd h hjr
            · exact h
      rw [Celt.assignLoop]
      split
      · exact key _ _
      · exact key _ _

/-- C4: For every invocation of `decode_allocation` and every band `i`
in the decoded band range, the final value written to `pulses[i]` is at
most `caps[i]`, the per-band hard cap computed from `STATIC_CAPS` and
`FREQ_RANGE` scaled by `(lm + stereo)`. -/
theorem claim_C4_pulses_le_caps {c : Celt} {rd : RState} {bstart bend : Nat}
    {out : Celt.AllocOut}
    (hd : Celt.decode_allocation c rd bstart bend = some out)
    {i : Nat} (h1 : bstart ≤ i) (h2 : i < bend) :
    out.pulses.getD i 0 ≤ (Celt.capsList c.lm c.stereo_pkt).getD i 0 := by
  rw [Celt.decode_allocation] at hd
  simp only [Option.pure_def, Option.bind_eq_bind] at hd
  obtain ⟨spair, hsp, hd2⟩ := Option.bind_eq_some.mp hd
  obtain ⟨spread, rd1⟩ := spair
  simp only [] at hd2
  obtain ⟨tpair, htr, hd3⟩ := Option.bind_eq_some.mp hd2
  obtain ⟨alloc_trim, rd3⟩ := tpair
  simp only [] at hd3
  obtain ⟨bis, hbis, hd4⟩ := Option.bind_eq_some.mp hd3
  rw [Option.some_inj] at hd4
  subst hd4
  rw [Celt.allocBisect] at hbis
  simp only [] at hbis
  have hbis2 := ite_none_some hbis
  rw [Option.some_inj] at hbis2
  rw [← hbis2]
  exact assignLoop_le_caps _ _ _ _ _ _
    (fun k => capsList_nonneg c.lm c.stereo_pkt k) _ _ _ _
    (Or.inl (mem_bandRev h1 h2))

/-- Witness for C4 at packet `[85, 17]`, bands `[0, 3)`, band 1. -/
theorem claim_C4_pulses_le_caps_witness :
    ((Celt.decode_allocation (Celt.new false) (RangeDecoder.new [32, 130, 60, 253])
        0 3).get (by decide)).pulses.getD 1 0
      ≤ (Celt.capsList (Celt.new false).lm (Celt.new false).stereo_pkt).getD
        1 0 :=
  claim_C4_pulses_le_caps (Option.some_get (by decide)).symm (by decide)
    (by decide)

/-- Auxiliary: after `to_end`, the whole-bit budget is exactly zero,
provided the state has not overrun the buffer. -/
theorem available_to_end (s : RState)
    (hlen : s.buf.length * 8 < 2 ^ 64)
    (hil : ilog s.range ≤ s.total)
    (htell : RangeDecoder.tell s ≤ s.buf.length * 8) :
    RangeDecoder.available (RangeDecoder.to_end s) = 0 := by
  have hU : USIZE = 2 ^ 64 := rfl
  rw [RangeDecoder.tell] at htell
  simp only [RangeDecoder.available, RangeDecoder.to_end, RangeDecoder.tell]
  rw [usub_eq_sub htell (by omega)]
  have h2 : s.total + (s.buf.length * 8 - (s.total - ilog s.range))
      - ilog s.range = s.buf.length * 8 := by omega
  rw [h2]
  rw [usub_eq_sub (Nat.le_refl _) (by omega)]
  omega

/-- Auxiliary: with the whole-bit budget exhausted, every band of the
coarse loop falls into the `-1`-residual branch, the decoder state is
never touched, and the loop computes exactly the `silentCoarse` closed
form on each decoded channel. -/
theorem coarseLoop_silent (lap : LaplaceFn) (stereo_pkt : Bool)
    (alpha beta : ℚ) (model : List Nat) (bstart bend : Nat) :
    ∀ fuel i e0 e1 prev0 prev1 rd, RangeDecoder.available rd = 0 →
      Celt.coarseLoop lap stereo_pkt alpha beta model bstart bend fuel i
        e0 e1 prev0 prev1 rd
      = some ((Celt.silentCoarse alpha beta bstart bend fuel i e0 prev0).1,
          (if stereo_pkt then
            (Celt.silentCoarse alpha beta bstart bend fuel i e1 prev1).1
          else e1),
          (Celt.silentCoarse alpha beta bstart bend fuel i e0 prev0).2,
          (if stereo_pkt then
            (Celt.silentCoarse alpha beta bstart bend fuel i e1 prev1).2
          else prev1),
          rd) := by
  intro fuel
  induction fuel with
  | zero =>
      intro i e0 e1 p0 p1 rd h
      rw [Celt.coarseLoop]
      simp only [Celt.silentCoarse]
      cases stereo_pkt <;> simp
  | succ fuel ih =>
      intro i e0 e1 p0 p1 rd h
      have hband : ∀ e prev, Celt.coarse_energy_band lap alpha beta model
          bstart bend i e prev rd =
          if i < bstart ∨ bend ≤ i then some (e.set i 0, prev, rd)
          else some (e.set i (max (e.getD i 0) (-9) * alpha + prev + (-1 : ℚ)),
            prev + beta * (-1 : ℚ), rd) := by
        intro e prev
        rw [Celt.coarse_energy_band]
        by_cases hio : i < bstart ∨ bend ≤ i
        · rw [if_pos hio, if_pos hio]
        · rw [if_neg hio, if_neg hio, if_neg (by omega), if_neg (by omega)]
      rw [Celt.coarseLoop]
      simp only [Celt.silentCoarse]
      by_cases hi : i < MAX_BANDS
      · by_cases hio : i < bstart ∨ bend ≤ i
        · simp only [if_pos hi, hband, if_pos hio, Option.pure_def,
            Option.bind_eq_bind, Option.some_bind]
          cases stereo_pkt
          · simpa using ih (i + 1) (e0.set i 0) e1 p0 p1 rd h
          · simpa using ih (i + 1) (e0.set i 0) (e1.set i 0) p0 p1 rd h
        · simp only [if_pos hi, hband, if_neg hio, Option.pure_def,
            Option.bind_eq_bind, Option.some_bind]
          cases stereo_pkt
          · simpa using ih (i + 1)
              (e0.set i (max (e0.getD i 0) (-9) * alpha + p0 + (-1 : ℚ))) e1
              (p0 + beta * (-1 : ℚ)) p1 rd h
          · simpa using ih (i + 1)
              (e0.set i (max (e0.getD i 0) (-9) * alpha + p0 + (-1 : ℚ)))
              (e1.set i (max (e1.getD i 0) (-9) * alpha + p1 + (-1 : ℚ)))
              (p0 + beta * (-1 : ℚ)) (p1 + beta * (-1 : ℚ)) rd h
      · simp only [if_neg hi]
        cases stereo_pkt <;> simp

/-- Auxiliary: with the whole-bit budget exhausted, `decode_coarse_energy`
chooses the inter model without reading any bits and computes the
`silentCoarse` closed form on each decoded channel, leaving the decoder
state untouched and reporting `intra = false`. -/
theorem decode_coarse_energy_silent (lap : LaplaceFn) (c : Celt) (rd : RState)
    (bstart bend : Nat) (h : RangeDecoder.available rd = 0) :
    Celt.decode_coarse_energy lap c rd bstart bend
      = some ((Celt.silentCoarse (ALPHA_COEF.getD c.lm 0)
          (BETA_COEF.getD c.lm 0) bstart bend MAX_BANDS 0
          c.frame0.energy 0).1,
        (if c.stereo_pkt then
          (Celt.silentCoarse (ALPHA_COEF.getD c.lm 0) (BETA_COEF.getD c.lm 0)
            bstart bend MAX_BANDS 0 c.frame1.energy 0).1
        else c.frame1.energy),
        rd, false) := by
  have hdec : Celt.coarseIntraDecision rd = (false, rd) := by
    rw [Celt.coarseIntraDecision, if_neg (by omega)]
  rw [Celt.decode_coarse_energy, hdec]
  simp only [Bool.false_eq_true, if_false, ite_false]
  rw [coarseLoop_silent lap c.stereo_pkt _ _ _ bstart bend MAX_BANDS 0
    c.frame0.energy c.frame1.energy 0 0 rd h]
  simp only [Option.pure_def, Option.bind_eq_bind, Option.some_bind]

set_option maxHeartbeats 2000000 in
/-- C1 (amended): when the silence flag decodes `true`, the decoder
fast-forwards to the end of the buffer; the postfilter fields and the
transient flag are NOT decoded from the stream (both instrumented
branch conditions are false, `transient` and `intra` default to
`false`), and both decoded channels' coarse energies follow the inter
recurrence with residual `-1` for every in-range band (the `silentCoarse`
closed form) — they are not, in general, all zero, and neither are the
pulses. -/
theorem claim_C1_silence (lap : LaplaceFn) (c0 : Celt) (rd : RState)
    (fd : FrameDuration) (bstart bend : Nat)
    (hlen : (if 0 < RangeDecoder.available rd then RangeDecoder.decode_logp rd 15
        else (true, rd)).2.buf.length * 8 < 2 ^ 64)
    (hil : ilog (if 0 < RangeDecoder.available rd
        then RangeDecoder.decode_logp rd 15 else (true, rd)).2.range
      ≤ (if 0 < RangeDecoder.available rd then RangeDecoder.decode_logp rd 15
        else (true, rd)).2.total)
    (htell : RangeDecoder.tell (if 0 < RangeDecoder.available rd
        then RangeDecoder.decode_logp rd 15 else (true, rd)).2
      ≤ (if 0 < RangeDecoder.available rd then RangeDecoder.decode_logp rd 15
        else (true, rd)).2.buf.length * 8)
    (hsil : (if 0 < RangeDecoder.available rd then RangeDecoder.decode_logp rd 15
        else (true, rd)).1 = true) :
    (Celt.decode lap c0 rd fd bstart bend).map
        (fun o => (o.silence, o.postfilterParsed, o.transientDecoded,
          o.transient, o.intra, o.c.frame0.energy, o.c.frame1.energy))
      = (Celt.decode lap c0 rd fd bstart bend).map
        (fun _ => (true, false, false, false, false,
          (Celt.silentCoarse
            (ALPHA_COEF.getD (ilog (fd.size / SHORT_BLOCKSIZE) - 1) 0)
            (BETA_COEF.getD (ilog (fd.size / SHORT_BLOCKSIZE) - 1) 0)
            bstart bend MAX_BANDS 0
            (if ¬ c0.stereo_pkt
              then List.zipWith max c0.frame0.energy c0.frame1.energy
              else c0.frame0.energy) 0).1,
          if c0.stereo_pkt then
            (Celt.silentCoarse
              (ALPHA_COEF.getD (ilog (fd.size / SHORT_BLOCKSIZE) - 1) 0)
              (BETA_COEF.getD (ilog (fd.size / SHORT_BLOCKSIZE) - 1) 0)
              bstart bend MAX_BANDS 0 c0.frame1.energy 0).1
          else c0.frame1.energy)) := by
  have h0 : RangeDecoder.available (RangeDecoder.to_end
      (if 0 < RangeDecoder.available rd then RangeDecoder.decode_logp rd 15
        else (true, rd)).2) = 0 := available_to_end _ hlen hil htell
  apply Option.map_congr
  intro o ho
  rw [Option.mem_def] at ho
  rw [Celt.decode] at ho
  by_cases hb : MAX_BANDS < bend
  · rw [if_pos hb] at ho
    cases ho
  · rw [if_neg hb] at ho
    generalize hsig : (if 0 < RangeDecoder.available rd
      then RangeDecoder.decode_logp rd 15 else (true, rd)) = si at hsil h0 ho
    obtain ⟨sflag, srd⟩ := si
    simp only [] at hsil h0
    subst hsil
    simp only [if_pos rfl, if_true] at ho
    have hpf : ¬(bstart = 0
        ∧ 16 ≤ RangeDecoder.available (RangeDecoder.to_end srd)) := by
      rw [h0]
      rintro ⟨-, h16⟩
      omega
    have htr : ¬(ilog (fd.size / SHORT_BLOCKSIZE) - 1 ≠ 0
        ∧ 3 ≤ RangeDecoder.available (RangeDecoder.to_end srd)) := by
      rw [h0]
      rintro ⟨-, h3⟩
      omega
    rw [if_neg hpf] at ho
    simp only [Option.pure_def, Option.bind_eq_bind, Option.some_bind,
      if_neg htr] at ho
    rw [decode_coarse_energy_silent lap _ _ bstart bend h0] at ho
    simp only [Option.some_bind] at ho
    obtain ⟨ao, hao, hrest⟩ := Option.bind_eq_some.mp ho
    rw [Option.some_inj] at hrest
    subst hrest
    simp only [decide_eq_false hpf, decide_eq_false htr]
    by_cases hst : c0.stereo_pkt = true
    · simp [Celt.reset_gains, hst]
    · simp [Celt.reset_gains, hst]

set_option maxRecDepth 40000 in
/-- C1 counterexample: for packet `[255, 254, 0, 0, 0]` the silence
flag decodes `true` and the postfilter/transient fields are indeed not
decoded, yet the decoded frame's `energy[0]` is not `0` (it is `-1`)
and `pulses[0]` is not `0` (it is `11`) — refuting the claim's
"all-zero energy[] and pulses[]". -/
theorem claim_C1_silence_counterexample :
    (Celt.decode lapZero (Celt.new false)
        (RangeDecoder.new [255, 254, 0, 0, 0]) FrameDuration.f120 0 21).map
      (fun o => (o.silence, o.postfilterParsed, o.transientDecoded,
        decide (o.c.frame0.energy.getD 0 0 = 0),
        decide (o.c.pulses.getD 0 0 = 0)))
      = some (true, false, false, false, false) := by
  with_unfolding_all decide

set_option maxRecDepth 40000 in
/-- Witness for C1's amended theorem at packet `[255, 254, 0, 0, 0]`. -/
theorem claim_C1_silence_witness :
    ((if 0 < RangeDecoder.available (RangeDecoder.new [255, 254, 0, 0, 0])
        then RangeDecoder.decode_logp (RangeDecoder.new [255, 254, 0, 0, 0]) 15
        else (true, RangeDecoder.new [255, 254, 0, 0, 0])).1 = true) ∧
    (Celt.decode lapZero (Celt.new false)
        (RangeDecoder.new [255, 254, 0, 0, 0]) FrameDuration.f120 0 21).map
        (fun o => (o.silence, o.postfilterParsed, o.transientDecoded,
          o.transient, o.intra, o.c.frame0.energy, o.c.frame1.energy))
      = (Celt.decode lapZero (Celt.new false)
        (RangeDecoder.new [255, 254, 0, 0, 0]) FrameDuration.f120 0 21).map
        (fun _ => (true, false, false, false, false,
          (Celt.silentCoarse
            (ALPHA_COEF.getD
              (ilog (FrameDuration.f120.size / SHORT_BLOCKSIZE) - 1) 0)
            (BETA_COEF.getD
              (ilog (FrameDuration.f120.size / SHORT_BLOCKSIZE) - 1) 0)
            0 21 MAX_BANDS 0
            (if ¬ (Celt.new false).stereo_pkt
              then List.zipWith max (Celt.new false).frame0.energy
                (Celt.new false).frame1.energy
              else (Celt.new false).frame0.energy) 0).1,
          if (Celt.new false).stereo_pkt then
            (Celt.silentCoarse
              (ALPHA_COEF.getD
                (ilog (FrameDuration.f120.size / SHORT_BLOCKSIZE) - 1) 0)
              (BETA_COEF.getD
                (ilog (FrameDuration.f120.size / SHORT_BLOCKSIZE) - 1) 0)
              0 21 MAX_BANDS 0 (Celt.new false).frame1.energy 0).1
          else (Celt.new false).frame1.energy)) :=
  ⟨by decide,
    claim_C1_silence lapZero (Celt.new false)
      (RangeDecoder.new [255, 254, 0, 0, 0]) FrameDuration.f120 0 21
      (by decide) (by decide) (by decide) (by decide)⟩

/-! ## Allocation-bisection monotonicity (C3) -/

/-- Auxiliary: `sar` of a nonnegative value is nonnegative. -/
theorem sar_nonneg {x : Int} (hx : 0 ≤ x) (n : Nat) : 0 ≤ sar x n :=
  Int.fdiv_nonneg hx (by positivity)

/-- Auxiliary: `sar` is monotone in its argument. -/
theorem sar_mono {x y : Int} (h : x ≤ y) (n : Nat) : sar x n ≤ sar y n := by
  rw [sar, sar, Int.fdiv_eq_ediv _ (by positivity), Int.fdiv_eq_ediv _ (by positivity)]
  exact Int.ediv_le_ediv (by positivity) h

/-- Auxiliary: the interpolation term `(i * b2) >> 6` never exceeds
`b2` for interpolation positions `i ≤ 63`. -/
theorem sar_interp_le {b : Int} (hb : 0 ≤ b) {i : Nat} (hi : i ≤ 63) :
    sar ((i : Int) * b) ALLOC_STEPS ≤ b := by
  have h1 : (i : Int) * b ≤ 64 * b := by
    have : (i : Int) ≤ 64 := by exact_mod_cast Nat.le_trans hi (by omega)
    exact mul_le_mul_of_nonneg_right this hb
  have h2 : sar ((i : Int) * b) ALLOC_STEPS ≤ sar (64 * b) ALLOC_STEPS :=
    sar_mono h1 _
  refine le_trans h2 ?_
  rw [sar, Int.fdiv_eq_ediv _ (by norm_num)]
  have h64 : (2 : Int) ^ ALLOC_STEPS = 64 := by decide
  rw [h64, Int.mul_ediv_cancel_left b (by decide)]

/-- Auxiliary: `i32_as_usize` is monotone on `[0, 2^64)`. -/
theorem i32_as_usize_le {x y : Int} (hx : 0 ≤ x) (hxy : x ≤ y)
    (hy : y < 2 ^ 64) : i32_as_usize x ≤ i32_as_usize y := by
  rw [i32_as_usize, i32_as_usize, Int.emod_eq_of_lt hx (by omega),
    Int.emod_eq_of_lt (by omega) (by omega)]
  exact Int.toNat_le_toNat hxy

/-- Auxiliary: comparisons through `i32_as_usize` reflect the integer
order for values in `[0, 2^64)`. -/
theorem i32_as_usize_lt_of_le {x y : Int} (hx : 0 ≤ x) (hxy : x ≤ y)
    (hy : y < 2 ^ 64) {a : Nat} (h : a < i32_as_usize x) :
    a < i32_as_usize y := lt_of_lt_of_le h (i32_as_usize_le hx hxy hy)

/-- Auxiliary: every static-allocation entry of row 0 is zero. -/
theorem staticAlloc_row0 (i : Nat) : (STATIC_ALLOC.getD 0 []).getD i 0 = 0 := by
  rcases Nat.lt_or_ge i 21 with hi | hi
  · have h : ∀ j < 21, (STATIC_ALLOC.getD 0 []).getD j 0 = 0 := by decide
    exact h i hi
  · have hl : (STATIC_ALLOC.getD 0 []).length = 21 := by decide
    exact List.getD_eq_default _ _ (by omega)

/-- Auxiliary: the static-allocation table's columns are nondecreasing
down the rows (so a higher bisection row never allocates less). -/
theorem staticAlloc_col_mono {r r' i : Nat} (hrr : r ≤ r') (hr : r' ≤ 10)
    (hi : i < 21) :
    (STATIC_ALLOC.getD r []).getD i 0 ≤ (STATIC_ALLOC.getD r' []).getD i 0 := by
  have h : ∀ j < 21, ∀ x < 11, ∀ y < 11, x ≤ y →
      (STATIC_ALLOC.getD x []).getD j 0 ≤ (STATIC_ALLOC.getD y []).getD j 0 := by
    decide
  exact h i hi r (by omega) r' (by omega) hrr

/-- Auxiliary: the static-allocation base value is monotone in the row. -/
theorem staticAllocBase_mono (sp : Bool) (lm : Nat) {r r' : Nat}
    (hrr : r ≤ r') (hr : r' ≤ 10) (i : Nat) :
    (FREQ_RANGE.getD i 0 * (STATIC_ALLOC.getD r []).getD i 0)
        <<< (if sp then 1 else 0) <<< lm >>> 2
      ≤ (FREQ_RANGE.getD i 0 * (STATIC_ALLOC.getD r' []).getD i 0)
        <<< (if sp then 1 else 0) <<< lm >>> 2 := by
  have halloc : (STATIC_ALLOC.getD r []).getD i 0
      ≤ (STATIC_ALLOC.getD r' []).getD i 0 := by
    rcases Nat.lt_or_ge i 21 with hi | hi
    · exact staticAlloc_col_mono hrr hr hi
    · have hx : (STATIC_ALLOC.getD r []).getD i 0 = 0 := by
        have hlen : (STATIC_ALLOC.getD r []).length ≤ 21 := by
          rcases Nat.lt_or_ge r 11 with hrx | hrx
          · have h : ∀ x < 11, (STATIC_ALLOC.getD x []).length ≤ 21 := by
              decide
            exact h r hrx
          · have hsl : STATIC_ALLOC.length = 11 := by decide
            rw [List.getD_eq_default STATIC_ALLOC [] (by omega)]
            decide
        exact List.getD_eq_default _ _ (by omega)
      rw [hx]
      exact Nat.zero_le _
  rw [Nat.shiftLeft_eq, Nat.shiftLeft_eq, Nat.shiftLeft_eq, Nat.shiftLeft_eq,
    Nat.shiftRight_eq_div_pow, Nat.shiftRight_eq_div_pow]
  exact Nat.div_le_div_right (Nat.mul_le_mul_right _
    (Nat.mul_le_mul_right _ (Nat.mul_le_mul_left _ halloc)))

/-- Auxiliary: estimated band bits are nonnegative. -/
theorem estBits_nonneg (sp : Bool) (lm : Nat) (toff : List Int) (idx i : Nat) :
    0 ≤ Celt.estBits sp lm toff idx i := by
  simp only [Celt.estBits]
  by_cases hz : (FREQ_RANGE.getD i 0 * (STATIC_ALLOC.getD idx []).getD i 0)
      <<< (if sp then 1 else 0) <<< lm >>> 2 ≠ 0
  · rw [if_pos hz]
    exact le_max_right _ _
  · rw [if_neg hz]
    exact Int.natCast_nonneg _

/-- Auxiliary: row 0 of the bisection estimates allocates nothing. -/
theorem estBits_zero (sp : Bool) (lm : Nat) (toff : List Int) (i : Nat) :
    Celt.estBits sp lm toff 0 i = 0 := by
  simp only [Celt.estBits]
  rw [staticAlloc_row0 i]
  simp

/-- Auxiliary: estimated band bits are monotone in the bisection row. -/
theorem estBits_mono (sp : Bool) (lm : Nat) (toff : List Int) {r r' : Nat}
    (hrr : r ≤ r') (hr : r' ≤ 10) (i : Nat) :
    Celt.estBits sp lm toff r i ≤ Celt.estBits sp lm toff r' i := by
  have hbase := staticAllocBase_mono sp lm hrr hr i
  simp only [Celt.estBits]
  generalize hA : (FREQ_RANGE.getD i 0 * (STATIC_ALLOC.getD r []).getD i 0)
      <<< (if sp then 1 else 0) <<< lm >>> 2 = A at hbase ⊢
  generalize hB : (FREQ_RANGE.getD i 0 * (STATIC_ALLOC.getD r' []).getD i 0)
      <<< (if sp then 1 else 0) <<< lm >>> 2 = B at hbase ⊢
  have hRnn : (0 : Int) ≤ if B ≠ 0 then max ((B : Int) + toff.getD i 0) 0
      else (B : Int) := by
    by_cases hz' : B ≠ 0
    · rw [if_pos hz']
      exact le_max_right _ _
    · rw [if_neg hz']
      exact Int.natCast_nonneg _
  by_cases hz : A = 0
  · rw [if_neg (fun hc => hc hz), hz]
    simpa using hRnn
  · rw [if_pos hz, if_pos (by omega)]
    refine max_le_max ?_ le_rfl
    have : ((A : Nat) : Int) ≤ ((B : Nat) : Int) := by exact_mod_cast hbase
    exact add_le_add_right this _

/-- Auxiliary: one step of the cost fold compared under pointwise-larger
band bits: the total stays ordered and a `done` flag on the smaller run
forces one on the larger. -/
theorem costStep_mono (threshold caps : List Int) (ccb : Int) (hccb : 0 ≤ ccb)
    {i : Nat} (hcaps : ccb ≤ caps.getD i 0) {x y : Int} (hxy : x ≤ y)
    (hy : 0 ≤ y) {acc acc' : Int × Bool} (hacc : acc.1 ≤ acc'.1)
    (hdone : acc.2 = true → acc'.2 = true) :
    (Celt.costStep threshold caps ccb x i acc).1
        ≤ (Celt.costStep threshold caps ccb y i acc').1
      ∧ ((Celt.costStep threshold caps ccb x i acc).2 = true
        → (Celt.costStep threshold caps ccb y i acc').2 = true) := by
  rw [Celt.costStep, Celt.costStep]
  by_cases hA : threshold.getD i 0 ≤ x ∨ acc.2 = true
  · have hA' : threshold.getD i 0 ≤ y ∨ acc'.2 = true := by
      rcases hA with h | h
      · exact Or.inl (le_trans h hxy)
      · exact Or.inr (hdone h)
    rw [if_pos hA, if_pos hA']
    exact ⟨add_le_add hacc (min_le_min hxy le_rfl), fun _ => rfl⟩
  · rw [if_neg hA]
    by_cases hB : ccb ≤ x
    · rw [if_pos hB]
      by_cases hA' : threshold.getD i 0 ≤ y ∨ acc'.2 = true
      · rw [if_pos hA']
        exact ⟨add_le_add hacc (le_min (le_trans hB hxy) hcaps), fun _ => rfl⟩
      · rw [if_neg hA', if_pos (le_trans hB hxy)]
        exact ⟨add_le_add hacc le_rfl, hdone⟩
    · rw [if_neg hB]
      by_cases hA' : threshold.getD i 0 ≤ y ∨ acc'.2 = true
      · rw [if_pos hA']
        refine ⟨le_trans hacc (le_add_of_nonneg_right (le_min hy
          (le_trans hccb hcaps))), fun _ => rfl⟩
      · rw [if_neg hA']
        by_cases hB' : ccb ≤ y
        · rw [if_pos hB']
          exact ⟨le_trans hacc (le_add_of_nonneg_right hccb), hdone⟩
        · rw [if_neg hB']
          exact ⟨hacc, hdone⟩

/-- Auxiliary: the cost fold is monotone under pointwise-larger band
bits (with nonnegative larger bits and caps at least the minimal
per-band cost). -/
theorem costFold_mono (threshold caps : List Int) (ccb : Int) (hccb : 0 ≤ ccb)
    (b b' : Nat → Int) :
    ∀ (rev : List Nat) (acc acc' : Int × Bool),
      (∀ i ∈ rev, ccb ≤ caps.getD i 0) →
      (∀ i ∈ rev, b i ≤ b' i) →
      (∀ i ∈ rev, 0 ≤ b' i) →
      acc.1 ≤ acc'.1 → (acc.2 = true → acc'.2 = true) →
      (rev.foldl (fun a i => Celt.costStep threshold caps ccb (b i) i a)
          acc).1
        ≤ (rev.foldl (fun a i => Celt.costStep threshold caps ccb (b' i) i a)
          acc').1 := by
  intro rev
  induction rev with
  | nil => intro acc acc' _ _ _ hacc _; exact hacc
  | cons i rest ih =>
      intro acc acc' hcaps hb hb0 hacc hdone
      simp only [List.foldl_cons]
      obtain ⟨h1, h2⟩ := costStep_mono threshold caps ccb hccb
        (hcaps i (List.mem_cons_self i rest)) (hb i (List.mem_cons_self i rest))
        (hb0 i (List.mem_cons_self i rest)) hacc hdone
      exact ih _ _ (fun j hj => hcaps j (List.mem_cons_of_mem i hj))
        (fun j hj => hb j (List.mem_cons_of_mem i hj))
        (fun j hj => hb0 j (List.mem_cons_of_mem i hj)) h1 h2

/-- Auxiliary: the cost fold's total never decreases below its
accumulator (all contributions are nonnegative). -/
theorem costFold_nonneg (threshold caps : List Int) (ccb : Int) (hccb : 0 ≤ ccb)
    (b : Nat → Int) :
    ∀ (rev : List Nat) (acc : Int × Bool),
      (∀ i ∈ rev, ccb ≤ caps.getD i 0) →
      (∀ i ∈ rev, 0 ≤ b i) →
      acc.1 ≤ (rev.foldl (fun a i => Celt.costStep threshold caps ccb (b i) i a)
        acc).1 := by
  intro rev
  induction rev with
  | nil => intro acc _ _; exact le_rfl
  | cons i rest ih =>
      intro acc hcaps hb
      simp only [List.foldl_cons]
      refine le_trans ?_ (ih _ (fun j hj => hcaps j (List.mem_cons_of_mem i hj))
        (fun j hj => hb j (List.mem_cons_of_mem i hj)))
      rw [Celt.costStep]
      split
      · exact le_add_of_nonneg_right (le_min (hb i (List.mem_cons_self i rest))
          (le_trans hccb (hcaps i (List.mem_cons_self i rest))))
      · split
        · exact le_add_of_nonneg_right hccb
        · exact le_rfl

/-- Auxiliary: each cost-fold step adds at most `max caps[i] ccb`. -/
theorem costFold_le (threshold caps : List Int) (ccb : Int) (hccb : 0 ≤ ccb)
    (b : Nat → Int) :
    ∀ (rev : List Nat) (acc : Int × Bool),
      (rev.foldl (fun a i => Celt.costStep threshold caps ccb (b i) i a)
          acc).1
        ≤ acc.1 + (rev.map (fun i => max (caps.getD i 0) ccb)).sum := by
  intro rev
  induction rev with
  | nil => intro acc; simp
  | cons i rest ih =>
      intro acc
      simp only [List.foldl_cons, List.map_cons, List.sum_cons]
      refine le_trans (ih _) ?_
      have hstep : (Celt.costStep threshold caps ccb (b i) i acc).1
          ≤ acc.1 + max (caps.getD i 0) ccb := by
        rw [Celt.costStep]
        split
        · exact add_le_add le_rfl (le_trans (min_le_right _ _) (le_max_left _ _))
        · split
          · exact add_le_add le_rfl (le_max_right _ _)
          · exact le_add_of_nonneg_right (le_trans hccb (le_max_right _ _))
      omega

/-- Auxiliary: characterization of the outer bisection on `[1, 10]`
under a monotone probe: the result `r` lies in `[1, 11]`, every row
below `r` fits the budget and every row from `r` on (up to 10)
overshoots it. -/
theorem outerGo_spec (T : Nat → Int) (avail : Nat)
    (hmono : ∀ c c', 1 ≤ c → c ≤ c' → c' ≤ 10 →
      i32_as_usize (T c) ≤ i32_as_usize (T c')) :
    ∀ fuel low high, 1 ≤ low → high ≤ 10 → low ≤ high + 1 →
      high + 1 ≤ low + fuel →
      (∀ c, 1 ≤ c → c < low → i32_as_usize (T c) ≤ avail) →
      (∀ c, high < c → c ≤ 10 → avail < i32_as_usize (T c)) →
      (1 ≤ Celt.outerGo T avail fuel low high
        ∧ Celt.outerGo T avail fuel low high ≤ 11
        ∧ (∀ c, 1 ≤ c → c < Celt.outerGo T avail fuel low high →
            i32_as_usize (T c) ≤ avail)
        ∧ (∀ c, Celt.outerGo T avail fuel low high ≤ c → c ≤ 10 →
            avail < i32_as_usize (T c))) := by
  intro fuel
  induction fuel with
  | zero =>
      intro low high hlow hhigh hlh hfuel hP1 hP2
      rw [Celt.outerGo]
      have heq : low = high + 1 := by omega
      exact ⟨hlow, by omega, hP1, fun c hc1 hc2 => hP2 c (by omega) hc2⟩
  | succ fuel ih =>
      intro low high hlow hhigh hlh hfuel hP1 hP2
      rw [Celt.outerGo]
      by_cases hle : low ≤ high
      · rw [if_pos hle]
        by_cases hcmp : avail < i32_as_usize (T ((low + high) / 2))
        · rw [if_pos hcmp]
          refine ih low ((low + high) / 2 - 1) hlow (by omega) (by omega)
            (by omega) hP1 ?_
          intro c hc1 hc2
          rcases Nat.lt_or_ge c ((low + high) / 2) with hc | hc
          · omega
          · exact lt_of_lt_of_le hcmp (hmono _ _ (by omega) hc hc2)
        · rw [if_neg hcmp]
          refine ih ((low + high) / 2 + 1) high (by omega) hhigh (by omega)
            (by omega) ?_ hP2
          intro c hc1 hc2
          refine le_trans (hmono c ((low + high) / 2) hc1 (by omega)
            (by omega)) ?_
          omega
      · rw [if_neg hle]
        have heq : low = high + 1 := by omega
        exact ⟨hlow, by omega, hP1, fun c hc1 hc2 => hP2 c (by omega) hc2⟩

/-- Auxiliary: the outer bisection result is monotone in the budget. -/
theorem outerGo_mono_avail (T : Nat → Int) {a a' : Nat} (ha : a ≤ a')
    (hmono : ∀ c c', 1 ≤ c → c ≤ c' → c' ≤ 10 →
      i32_as_usize (T c) ≤ i32_as_usize (T c')) :
    Celt.outerGo T a 16 1 (CELT_VECTOR - 1)
      ≤ Celt.outerGo T a' 16 1 (CELT_VECTOR - 1) := by
  obtain ⟨hr1, hr2, hrP1, hrP2⟩ := outerGo_spec T a hmono 16 1 (CELT_VECTOR - 1)
    le_rfl (by decide) (by decide) (by decide)
    (fun c hc1 hc2 => absurd hc2 (by omega))
    (fun c hc1 hc2 => absurd (lt_of_lt_of_le hc1 hc2) (by decide))
  obtain ⟨hs1, hs2, hsP1, hsP2⟩ := outerGo_spec T a' hmono 16 1 (CELT_VECTOR - 1)
    le_rfl (by decide) (by decide) (by decide)
    (fun c hc1 hc2 => absurd hc2 (by omega))
    (fun c hc1 hc2 => absurd (lt_of_lt_of_le hc1 hc2) (by decide))
  by_contra hcon
  push_neg at hcon
  have h1 := hrP1 (Celt.outerGo T a' 16 1 (CELT_VECTOR - 1)) hs1 hcon
  have h2 := hsP2 (Celt.outerGo T a' 16 1 (CELT_VECTOR - 1)) le_rfl (by omega)
  omega

/-- Auxiliary: characterization of the inner interpolation bisection:
gap-halving keeps `high = low + 2^fuel`, the lower end (if nonzero)
fits the budget, and the upper end (if below 64) overshoots it. -/
theorem innerGo_spec (T : Nat → Int) (avail : Nat) :
    ∀ fuel lh, lh.2 = lh.1 + 2 ^ fuel → lh.2 ≤ 64 →
      (lh.1 = 0 ∨ i32_as_usize (T lh.1) ≤ avail) →
      (lh.2 = 64 ∨ avail < i32_as_usize (T lh.2)) →
      ((Celt.innerGo T avail fuel lh).2 = (Celt.innerGo T avail fuel lh).1 + 1
        ∧ (Celt.innerGo T avail fuel lh).2 ≤ 64
        ∧ ((Celt.innerGo T avail fuel lh).1 = 0
            ∨ i32_as_usize (T (Celt.innerGo T avail fuel lh).1) ≤ avail)
        ∧ ((Celt.innerGo T avail fuel lh).2 = 64
            ∨ avail < i32_as_usize (T (Celt.innerGo T avail fuel lh).2))) := by
  intro fuel
  induction fuel with
  | zero =>
      intro lh hgap hh hlo hhi
      rw [Celt.innerGo]
      exact ⟨by omega, hh, hlo, hhi⟩
  | succ fuel ih =>
      intro lh hgap hh hlo hhi
      have h2p : 2 ^ (fuel + 1) = 2 * 2 ^ fuel := by
        rw [Nat.pow_succ]
        omega
      have hcen : (lh.1 + lh.2) / 2 = lh.1 + 2 ^ fuel := by omega
      rw [Celt.innerGo]
      by_cases hcmp : avail < i32_as_usize (T ((lh.1 + lh.2) / 2))
      · rw [if_pos hcmp]
        refine ih _ (by simpa using by omega) (by simp; omega) hlo ?_
        simp only []
        rw [hcen]
        right
        rwa [← hcen]
      · rw [if_neg hcmp]
        refine ih _ (by simp; omega) (by simp; omega) ?_ hhi
        simp only []
        rw [hcen]
        right
        rw [← hcen]
        omega

/-- Auxiliary: the inner interpolation result is monotone in the
budget. -/
theorem innerGo_mono_avail (T : Nat → Int) {a a' : Nat} (ha : a ≤ a')
    (hmono : ∀ c c', c ≤ c' → c' ≤ 64 →
      i32_as_usize (T c) ≤ i32_as_usize (T c')) :
    (Celt.innerGo T a ALLOC_STEPS (0, 1 <<< ALLOC_STEPS)).1
      ≤ (Celt.innerGo T a' ALLOC_STEPS (0, 1 <<< ALLOC_STEPS)).1 := by
  obtain ⟨hr1, hr2, hr3, hr4⟩ := innerGo_spec T a ALLOC_STEPS
    (0, 1 <<< ALLOC_STEPS) (by decide) (by decide) (Or.inl rfl)
    (Or.inl (by decide))
  obtain ⟨hs1, hs2, hs3, hs4⟩ := innerGo_spec T a' ALLOC_STEPS
    (0, 1 <<< ALLOC_STEPS) (by decide) (by decide) (Or.inl rfl)
    (Or.inl (by decide))
  by_contra hcon
  push_neg at hcon
  rcases hr3 with h0 | hle
  · omega
  · rcases hs4 with h64 | hgt
    · omega
    · have hm := hmono (Celt.innerGo T a' ALLOC_STEPS (0, 1 <<< ALLOC_STEPS)).2
        (Celt.innerGo T a ALLOC_STEPS (0, 1 <<< ALLOC_STEPS)).1
        (by omega) (by omega)
      omega

/-- Auxiliary: reversed-band membership gives the range bounds. -/
theorem bandRev_mem {bstart bend j : Nat} (h : j ∈ Celt.bandRev bstart bend) :
    bstart ≤ j ∧ j < bend := by
  rw [Celt.bandRev, List.mem_reverse, List.mem_range'_1] at h
  omega

/-- Auxiliary: the reversed band list has no duplicates. -/
theorem bandRev_nodup (bstart bend : Nat) : (Celt.bandRev bstart bend).Nodup := by
  rw [Celt.bandRev, List.nodup_reverse]
  exact List.nodup_range' bstart (bend - bstart)

/-- Auxiliary: the `bits1`/`bits2` loop never touches entries below its
current band index. -/
theorem bits12Loop_preserve (sp : Bool) (lm : Nat) (toff boost : List Int)
    (low high bend : Nat) :
    ∀ fuel i b1 b2 ssb j, j < i →
      ((Celt.bits12Loop sp lm toff boost low high bend fuel i b1 b2 ssb).1.getD
          j 0 = b1.getD j 0)
      ∧ ((Celt.bits12Loop sp lm toff boost low high bend fuel i b1 b2
          ssb).2.1.getD j 0 = b2.getD j 0) := by
  intro fuel
  induction fuel with
  | zero => intro i b1 b2 ssb j h; exact ⟨rfl, rfl⟩
  | succ fuel ih =>
      intro i b1 b2 ssb j h
      rw [Celt.bits12Loop]
      by_cases hib : i < bend
      · rw [if_pos hib]
        obtain ⟨h1, h2⟩ := ih (i + 1)
          (b1.set i (if boost.getD i 0 ≠ 0 ∧ low ≠ 0
            then Celt.estBits sp lm toff low i + boost.getD i 0
            else Celt.estBits sp lm toff low i))
          (b2.set i (max ((if boost.getD i 0 ≠ 0
              then Celt.estBits sp lm toff high i + boost.getD i 0
              else Celt.estBits sp lm toff high i)
            - (if boost.getD i 0 ≠ 0 ∧ low ≠ 0
              then Celt.estBits sp lm toff low i + boost.getD i 0
              else Celt.estBits sp lm toff low i)) 0))
          (if boost.getD i 0 ≠ 0 then i else ssb) j (by omega)
        exact ⟨h1.trans (getD_set_ne _ _ _ _ _ (by omega)),
               h2.trans (getD_set_ne _ _ _ _ _ (by omega))⟩
      · rw [if_neg hib]
        exact ⟨rfl, rfl⟩

/-- Auxiliary: per-band closed form of the `bits1`/`bits2` loop output
on the decoded range. -/
theorem bits12Loop_getD (sp : Bool) (lm : Nat) (toff boost : List Int)
    (low high bend : Nat) (hbend : bend ≤ MAX_BANDS) :
    ∀ fuel i b1 b2 ssb, bend ≤ i + fuel →
      b1.length = MAX_BANDS → b2.length = MAX_BANDS →
      ∀ j, i ≤ j → j < bend →
        ((Celt.bits12Loop sp lm toff boost low high bend fuel i b1 b2
            ssb).1.getD j 0
          = (if boost.getD j 0 ≠ 0 ∧ low ≠ 0
              then Celt.estBits sp lm toff low j + boost.getD j 0
              else Celt.estBits sp lm toff low j))
        ∧ ((Celt.bits12Loop sp lm toff boost low high bend fuel i b1 b2
            ssb).2.1.getD j 0
          = max ((if boost.getD j 0 ≠ 0
              then Celt.estBits sp lm toff high j + boost.getD j 0
              else Celt.estBits sp lm toff high j)
            - (if boost.getD j 0 ≠ 0 ∧ low ≠ 0
              then Celt.estBits sp lm toff low j + boost.getD j 0
              else Celt.estBits sp lm toff low j)) 0) := by
  intro fuel
  induction fuel with
  | zero => intro i b1 b2 ssb hf _ _ j hj1 hj2; omega
  | succ fuel ih =>
      intro i b1 b2 ssb hf hl1 hl2 j hj1 hj2
      have hib : i < bend := by omega
      rw [Celt.bits12Loop, if_pos hib]
      rcases Nat.lt_or_ge i j with hij | hij
      · exact ih (i + 1) _ _ _ (by omega) (by simpa using hl1)
          (by simpa using hl2) j (by omega) hj2
      · have hji : j = i := by omega
        subst hji
        obtain ⟨hp1, hp2⟩ := bits12Loop_preserve sp lm toff boost low high bend
          fuel (j + 1)
          (b1.set j (if boost.getD j 0 ≠ 0 ∧ low ≠ 0
            then Celt.estBits sp lm toff low j + boost.getD j 0
            else Celt.estBits sp lm toff low j))
          (b2.set j (max ((if boost.getD j 0 ≠ 0
              then Celt.estBits sp lm toff high j + boost.getD j 0
              else Celt.estBits sp lm toff high j)
            - (if boost.getD j 0 ≠ 0 ∧ low ≠ 0
              then Celt.estBits sp lm toff low j + boost.getD j 0
              else Celt.estBits sp lm toff low j)) 0))
          (if boost.getD j 0 ≠ 0 then j else ssb) j (by omega)
        exact ⟨hp1.trans (getD_set_eq _ _ _ _ (by omega)),
               hp2.trans (getD_set_eq _ _ _ _ (by omega))⟩

/-- Auxiliary: the assignment loop never touches bands outside its
list. -/
theorem assignLoop_preserve (threshold caps : List Int) (ccb : Int)
    (bits1 bits2 : List Int) (il : Nat) :
    ∀ (rev : List Nat) (done : Bool) (pulses : List Int) (j : Nat), j ∉ rev →
      (Celt.assignLoop threshold caps ccb bits1 bits2 il rev done
        pulses).getD j 0 = pulses.getD j 0 := by
  intro rev
  induction rev with
  | nil => intro done pulses j h; rfl
  | cons i rest ih =>
      intro done pulses j h
      have hji : j ≠ i := fun he => h (he ▸ List.mem_cons_self i rest)
      have hjr : j ∉ rest := fun he => h (List.mem_cons_of_mem i he)
      rw [Celt.assignLoop]
      split
      · exact (ih _ _ j hjr).trans (getD_set_ne _ _ _ _ _ (Ne.symm hji))
      · exact (ih _ _ j hjr).trans (getD_set_ne _ _ _ _ _ (Ne.symm hji))

/-- Auxiliary: the total pulses written by the assignment loop over its
band list equal the same cost fold that the bisection probes compute. -/
theorem assignLoop_sum (threshold caps : List Int) (ccb : Int) (hccb : 0 ≤ ccb)
    (bits1 bits2 : List Int) (il : Nat) :
    ∀ (rev : List Nat) (done : Bool) (pulses : List Int) (t : Int),
      rev.Nodup → (∀ j ∈ rev, j < MAX_BANDS) → pulses.length = MAX_BANDS →
      (∀ j ∈ rev, ccb ≤ caps.getD j 0) →
      ((rev.map (fun j => (Celt.assignLoop threshold caps ccb bits1 bits2 il
          rev done pulses).getD j 0)).sum + t
        = (rev.foldl (fun a j => Celt.costStep threshold caps ccb
            (bits1.getD j 0 + sar ((il : Int) * bits2.getD j 0) ALLOC_STEPS)
            j a) (t, done)).1) := by
  intro rev
  induction rev with
  | nil => intro done pulses t _ _ _ _; simp
  | cons i rest ih =>
      intro done pulses t hnd hmb hplen hcaps
      obtain ⟨hni, hndr⟩ := List.nodup_cons.mp hnd
      simp only [Celt.assignLoop, List.map_cons, List.sum_cons,
        List.foldl_cons, Celt.costStep]
      by_cases hA : threshold.getD i 0 ≤ bits1.getD i 0
          + sar ((il : Int) * bits2.getD i 0) ALLOC_STEPS ∨ done = true
      · rw [if_pos hA, if_pos hA]
        have hLi := (assignLoop_preserve threshold caps ccb bits1 bits2 il rest
          true (pulses.set i (min (bits1.getD i 0
            + sar ((il : Int) * bits2.getD i 0) ALLOC_STEPS) (caps.getD i 0)))
          i hni).trans (getD_set_eq _ _ _ _ (by
            rw [hplen]
            exact hmb i (List.mem_cons_self i rest)))
        rw [hLi]
        have hIH := ih true (pulses.set i (min (bits1.getD i 0
            + sar ((il : Int) * bits2.getD i 0) ALLOC_STEPS) (caps.getD i 0)))
          (t + min (bits1.getD i 0
            + sar ((il : Int) * bits2.getD i 0) ALLOC_STEPS) (caps.getD i 0))
          hndr (fun j hj => hmb j (List.mem_cons_of_mem i hj))
          (by simpa using hplen)
          (fun j hj => hcaps j (List.mem_cons_of_mem i hj))
        simp only [Celt.costStep] at hIH
        omega
      · rw [if_neg hA, if_neg hA]
        by_cases hB : ccb ≤ bits1.getD i 0
            + sar ((il : Int) * bits2.getD i 0) ALLOC_STEPS
        · rw [if_pos hB, if_pos hB]
          have hmin : min ccb (caps.getD i 0) = ccb :=
            min_eq_left (hcaps i (List.mem_cons_self i rest))
          rw [hmin]
          have hLi := (assignLoop_preserve threshold caps ccb bits1 bits2 il
            rest done (pulses.set i ccb) i hni).trans
            (getD_set_eq _ _ _ _ (by
              rw [hplen]
              exact hmb i (List.mem_cons_self i rest)))
          rw [hLi]
          have hIH := ih done (pulses.set i ccb) (t + ccb)
            hndr (fun j hj => hmb j (List.mem_cons_of_mem i hj))
            (by simpa using hplen)
            (fun j hj => hcaps j (List.mem_cons_of_mem i hj))
          simp only [Celt.costStep] at hIH
          omega
        · rw [if_neg hB, if_neg hB]
          have hmin : min (0 : Int) (caps.getD i 0) = 0 :=
            min_eq_left (le_trans hccb (hcaps i (List.mem_cons_self i rest)))
          rw [hmin]
          have hLi := (assignLoop_preserve threshold caps ccb bits1 bits2 il
            rest done (pulses.set i 0) i hni).trans
            (getD_set_eq _ _ _ _ (by
              rw [hplen]
              exact hmb i (List.mem_cons_self i rest)))
          rw [hLi]
          have hIH := ih done (pulses.set i 0) t
            hndr (fun j hj => hmb j (List.mem_cons_of_mem i hj))
            (by simpa using hplen)
            (fun j hj => hcaps j (List.mem_cons_of_mem i hj))
          simp only [Celt.costStep] at hIH
          omega

/-- Auxiliary: an `if _ then none else _` that produced a value has a
false condition. -/
theorem ite_none_ne {α : Type} {c : Prop} [Decidable c] {x : α}
    {y : Option α} (h : (if c then none else y) = some x) : ¬ c := by
  intro hc
  rw [if_pos hc] at h
  cases h

/-- Auxiliary: two assignment runs over the same band range with
pointwise-ordered (and nonnegative on the larger side) per-band bits
produce ordered pulse totals. -/
theorem assign_sum_mono (bstart bend : Nat) (threshold caps : List Int)
    (ccb : Int) (hccb0 : 0 ≤ ccb)
    (b1 b2 b1' b2' : List Int) (il il' : Nat) (pulses0 : List Int)
    (hbend : bend ≤ MAX_BANDS) (hplen : pulses0.length = MAX_BANDS)
    (hcapsLo : ∀ i < bend, ccb ≤ caps.getD i 0)
    (hpt : ∀ j, bstart ≤ j → j < bend →
      b1.getD j 0 + sar ((il : Int) * b2.getD j 0) ALLOC_STEPS
        ≤ b1'.getD j 0 + sar ((il' : Int) * b2'.getD j 0) ALLOC_STEPS)
    (hnn : ∀ j, bstart ≤ j → j < bend →
      0 ≤ b1'.getD j 0 + sar ((il' : Int) * b2'.getD j 0) ALLOC_STEPS) :
    ((List.range' bstart (bend - bstart)).map (fun i =>
        (Celt.assignLoop threshold caps ccb b1 b2 il
          (Celt.bandRev bstart bend) false pulses0).getD i 0)).sum
      ≤ ((List.range' bstart (bend - bstart)).map (fun i =>
        (Celt.assignLoop threshold caps ccb b1' b2' il'
          (Celt.bandRev bstart bend) false pulses0).getD i 0)).sum := by
  have hmem : ∀ j ∈ Celt.bandRev bstart bend, j < MAX_BANDS :=
    fun j hj => lt_of_lt_of_le (bandRev_mem hj).2 hbend
  have hcapsR : ∀ j ∈ Celt.bandRev bstart bend, ccb ≤ caps.getD j 0 :=
    fun j hj => hcapsLo j (bandRev_mem hj).2
  have hrevsum : ∀ (L : List Int),
      ((List.range' bstart (bend - bstart)).map (fun i => L.getD i 0)).sum
        = ((Celt.bandRev bstart bend).map (fun i => L.getD i 0)).sum := by
    intro L
    rw [Celt.bandRev, List.map_reverse, List.sum_reverse]
  rw [hrevsum, hrevsum]
  have hs1 := assignLoop_sum threshold caps ccb hccb0 b1 b2 il
    (Celt.bandRev bstart bend) false pulses0 0 (bandRev_nodup _ _) hmem hplen
    hcapsR
  have hs2 := assignLoop_sum threshold caps ccb hccb0 b1' b2' il'
    (Celt.bandRev bstart bend) false pulses0 0 (bandRev_nodup _ _) hmem hplen
    hcapsR
  rw [add_zero] at hs1 hs2
  rw [hs1, hs2]
  exact costFold_mono threshold caps ccb hccb0
    (fun j => b1.getD j 0 + sar ((il : Int) * b2.getD j 0) ALLOC_STEPS)
    (fun j => b1'.getD j 0 + sar ((il' : Int) * b2'.getD j 0) ALLOC_STEPS)
    (Celt.bandRev bstart bend) ((0 : Int), false) ((0 : Int), false) hcapsR
    (fun j hj => hpt j (bandRev_mem hj).1 (bandRev_mem hj).2)
    (fun j hj => hnn j (bandRev_mem hj).1 (bandRev_mem hj).2)
    le_rfl (fun h => h)

/-- Auxiliary: the interpolated per-band bits are nonnegative. -/
theorem bits_pointwise_nonneg (sp : Bool) (lm : Nat) (toff : List Int)
    {B : Int} (hB : 0 ≤ B) (R' : Nat) (ι' : Nat) (j : Nat) :
    0 ≤ (if B ≠ 0 ∧ (R' - 1) ≠ 0 then Celt.estBits sp lm toff (R' - 1) j + B
        else Celt.estBits sp lm toff (R' - 1) j)
      + sar ((ι' : Int) * max ((if B ≠ 0
          then Celt.estBits sp lm toff R' j + B
          else Celt.estBits sp lm toff R' j)
        - (if B ≠ 0 ∧ (R' - 1) ≠ 0 then Celt.estBits sp lm toff (R' - 1) j + B
          else Celt.estBits sp lm toff (R' - 1) j)) 0) ALLOC_STEPS := by
  have h1 : 0 ≤ (if B ≠ 0 ∧ (R' - 1) ≠ 0
      then Celt.estBits sp lm toff (R' - 1) j + B
      else Celt.estBits sp lm toff (R' - 1) j) := by
    split
    · exact add_nonneg (estBits_nonneg _ _ _ _ _) hB
    · exact estBits_nonneg _ _ _ _ _
  have h2 : 0 ≤ sar ((ι' : Int) * max ((if B ≠ 0
        then Celt.estBits sp lm toff R' j + B
        else Celt.estBits sp lm toff R' j)
      - (if B ≠ 0 ∧ (R' - 1) ≠ 0 then Celt.estBits sp lm toff (R' - 1) j + B
        else Celt.estBits sp lm toff (R' - 1) j)) 0) ALLOC_STEPS :=
    sar_nonneg (mul_nonneg (Int.natCast_nonneg _) (le_max_right _ 0)) _
  exact add_nonneg h1 h2

/-- Auxiliary: pointwise dominance of the interpolated band bits across
the outer-row boundary: within the same row, interpolation position
monotonicity suffices; across rows, `bits1 + bits2 = est(high) + boost`
and `est(high) ≤ est(high' - 1) = bits1'` bridge the gap. -/
theorem bits_pointwise_mono (sp : Bool) (lm : Nat) (toff : List Int)
    {B : Int} (hB : 0 ≤ B) {R R' : Nat} (hR1 : 1 ≤ R) (hR'10 : R' ≤ 10)
    (hRR' : R ≤ R') {ι ι' : Nat} (hι : ι ≤ 63)
    (hιι' : R = R' → ι ≤ ι') (j : Nat) :
    (if B ≠ 0 ∧ (R - 1) ≠ 0 then Celt.estBits sp lm toff (R - 1) j + B
      else Celt.estBits sp lm toff (R - 1) j)
      + sar ((ι : Int) * max ((if B ≠ 0 then Celt.estBits sp lm toff R j + B
          else Celt.estBits sp lm toff R j)
        - (if B ≠ 0 ∧ (R - 1) ≠ 0 then Celt.estBits sp lm toff (R - 1) j + B
          else Celt.estBits sp lm toff (R - 1) j)) 0) ALLOC_STEPS
    ≤ (if B ≠ 0 ∧ (R' - 1) ≠ 0 then Celt.estBits sp lm toff (R' - 1) j + B
      else Celt.estBits sp lm toff (R' - 1) j)
      + sar ((ι' : Int) * max ((if B ≠ 0 then Celt.estBits sp lm toff R' j + B
          else Celt.estBits sp lm toff R' j)
        - (if B ≠ 0 ∧ (R' - 1) ≠ 0 then Celt.estBits sp lm toff (R' - 1) j + B
          else Celt.estBits sp lm toff (R' - 1) j)) 0) ALLOC_STEPS := by
  rcases eq_or_lt_of_le hRR' with heq | hlt
  · subst heq
    refine add_le_add_left (sar_mono (mul_le_mul_of_nonneg_right ?_
      (le_max_right _ 0)) _) _
    exact_mod_cast hιι' rfl
  · have hR10 : R ≤ 10 := by omega
    have hRle : R ≤ R' - 1 := by omega
    have hR'm1 : (R' - 1) ≠ 0 := by omega
    have hXnn : 0 ≤ (if B ≠ 0 then Celt.estBits sp lm toff R j + B
        else Celt.estBits sp lm toff R j) := by
      split
      · exact add_nonneg (estBits_nonneg _ _ _ _ _) hB
      · exact estBits_nonneg _ _ _ _ _
    have hsum : (if B ≠ 0 ∧ (R - 1) ≠ 0 then Celt.estBits sp lm toff (R - 1) j + B
          else Celt.estBits sp lm toff (R - 1) j)
        + max ((if B ≠ 0 then Celt.estBits sp lm toff R j + B
            else Celt.estBits sp lm toff R j)
          - (if B ≠ 0 ∧ (R - 1) ≠ 0 then Celt.estBits sp lm toff (R - 1) j + B
            else Celt.estBits sp lm toff (R - 1) j)) 0
        = (if B ≠ 0 then Celt.estBits sp lm toff R j + B
            else Celt.estBits sp lm toff R j) := by
      have hmono1 : Celt.estBits sp lm toff (R - 1) j
          ≤ Celt.estBits sp lm toff R j :=
        estBits_mono sp lm toff (by omega) hR10 j
      by_cases hRz : (R - 1) = 0
      · have hz : Celt.estBits sp lm toff (R - 1) j = 0 := by
          rw [hRz]
          exact estBits_zero sp lm toff j
        rw [if_neg (by tauto), hz, sub_zero, max_eq_left hXnn, zero_add]
      · by_cases hBz : B ≠ 0
        · rw [if_pos ⟨hBz, hRz⟩, if_pos hBz]
          rw [max_eq_left (by omega)]
          omega
        · rw [if_neg (by tauto), if_neg hBz]
          rw [max_eq_left (by omega)]
          omega
    have hstep1 : (if B ≠ 0 ∧ (R - 1) ≠ 0
          then Celt.estBits sp lm toff (R - 1) j + B
          else Celt.estBits sp lm toff (R - 1) j)
        + sar ((ι : Int) * max ((if B ≠ 0
            then Celt.estBits sp lm toff R j + B
            else Celt.estBits sp lm toff R j)
          - (if B ≠ 0 ∧ (R - 1) ≠ 0
            then Celt.estBits sp lm toff (R - 1) j + B
            else Celt.estBits sp lm toff (R - 1) j)) 0) ALLOC_STEPS
        ≤ (if B ≠ 0 then Celt.estBits sp lm toff R j + B
            else Celt.estBits sp lm toff R j) :=
      le_trans (add_le_add_left (sar_interp_le (le_max_right _ 0) hι) _)
        (le_of_eq hsum)
    have hstep2 : (if B ≠ 0 then Celt.estBits sp lm toff R j + B
          else Celt.estBits sp lm toff R j)
        ≤ (if B ≠ 0 ∧ (R' - 1) ≠ 0
          then Celt.estBits sp lm toff (R' - 1) j + B
          else Celt.estBits sp lm toff (R' - 1) j) := by
      have hmono2 : Celt.estBits sp lm toff R j
          ≤ Celt.estBits sp lm toff (R' - 1) j :=
        estBits_mono sp lm toff hRle (by omega) j
      by_cases hBz : B ≠ 0
      · rw [if_pos hBz, if_pos ⟨hBz, hR'm1⟩]
        omega
      · rw [if_neg hBz, if_neg (by tauto)]
        exact hmono2
    refine le_trans hstep1 (le_trans hstep2 (le_add_of_nonneg_right ?_))
    exact sar_nonneg (mul_nonneg (Int.natCast_nonneg _) (le_max_right _ 0)) _

/-- Auxiliary: a probe cost over nonnegative band bits lies in
`[0, 2^64)` when the caps are bounded by `2^32`. -/
theorem allocCost_bounds (bstart bend : Nat) (threshold caps : List Int)
    (ccb : Int) (hccb0 : 0 ≤ ccb) (hccb16 : ccb ≤ 16) (b : Nat → Int)
    (hbend : bend ≤ MAX_BANDS)
    (hcapsLo : ∀ i < bend, ccb ≤ caps.getD i 0)
    (hcapsHi : ∀ i < bend, caps.getD i 0 ≤ 2 ^ 32)
    (hb : ∀ i, bstart ≤ i → i < bend → 0 ≤ b i) :
    0 ≤ Celt.allocCost (Celt.bandRev bstart bend) threshold caps ccb b
      ∧ Celt.allocCost (Celt.bandRev bstart bend) threshold caps ccb b
        < 2 ^ 64 := by
  rw [Celt.allocCost]
  constructor
  · exact costFold_nonneg threshold caps ccb hccb0 b (Celt.bandRev bstart bend)
      ((0 : Int), false) (fun i hi => hcapsLo i (bandRev_mem hi).2)
      (fun i hi => hb i (bandRev_mem hi).1 (bandRev_mem hi).2)
  · refine lt_of_le_of_lt (costFold_le threshold caps ccb hccb0 b
      (Celt.bandRev bstart bend) ((0 : Int), false)) ?_
    have hsum := List.sum_le_card_nsmul
      ((Celt.bandRev bstart bend).map (fun i => max (caps.getD i 0) ccb))
      ((2 : Int) ^ 32) ?_
    · rw [nsmul_eq_mul] at hsum
      have hlen : ((Celt.bandRev bstart bend).map
          (fun i => max (caps.getD i 0) ccb)).length ≤ MAX_BANDS := by
        rw [List.length_map, Celt.bandRev, List.length_reverse,
          List.length_range']
        omega
      have hMB : MAX_BANDS = 21 := rfl
      have hcast : (((Celt.bandRev bstart bend).map
          (fun i => max (caps.getD i 0) ccb)).length : Int) ≤ 21 := by
        exact_mod_cast hMB ▸ hlen
      omega
    · intro x hx
      obtain ⟨i, hi, hxe⟩ := List.mem_map.mp hx
      rw [← hxe]
      exact max_le (hcapsHi i (bandRev_mem hi).2) (le_trans hccb16 (by norm_num))

/-- Auxiliary: the outer probe total, viewed through the usize cast, is
monotone in the bisection row. -/
theorem outerT_mono (bstart bend : Nat) (sp : Bool) (lm : Nat)
    (threshold caps toff boost : List Int)
    (hbend : bend ≤ MAX_BANDS)
    (hboost : ∀ i < bend, 0 ≤ boost.getD i 0)
    (hcapsLo : ∀ i < bend,
      (((if sp then 1 else 0) + 1) <<< 3 : Int) ≤ caps.getD i 0)
    (hcapsHi : ∀ i < bend, caps.getD i 0 ≤ 2 ^ 32) :
    ∀ c c', 1 ≤ c → c ≤ c' → c' ≤ 10 →
      i32_as_usize (Celt.allocCost (Celt.bandRev bstart bend) threshold caps
        (((if sp then 1 else 0) + 1) <<< 3)
        (fun i => Celt.estBits sp lm toff c i + boost.getD i 0))
      ≤ i32_as_usize (Celt.allocCost (Celt.bandRev bstart bend) threshold caps
        (((if sp then 1 else 0) + 1) <<< 3)
        (fun i => Celt.estBits sp lm toff c' i + boost.getD i 0)) := by
  intro c c' hc1 hcc hc10
  have hccb0 : (0 : Int) ≤ ((if sp then 1 else 0) + 1) <<< 3 := by
    cases sp <;> decide
  have hccb16 : (((if sp then 1 else 0) + 1) <<< 3 : Int) ≤ 16 := by
    cases sp <;> decide
  obtain ⟨hnn, _⟩ := allocCost_bounds bstart bend threshold caps _ hccb0 hccb16
    (fun i => Celt.estBits sp lm toff c i + boost.getD i 0) hbend hcapsLo
    hcapsHi (fun i _ hi => add_nonneg (estBits_nonneg _ _ _ _ _) (hboost i hi))
  obtain ⟨_, hub⟩ := allocCost_bounds bstart bend threshold caps _ hccb0 hccb16
    (fun i => Celt.estBits sp lm toff c' i + boost.getD i 0) hbend hcapsLo
    hcapsHi (fun i _ hi => add_nonneg (estBits_nonneg _ _ _ _ _) (hboost i hi))
  refine i32_as_usize_le hnn ?_ hub
  rw [Celt.allocCost, Celt.allocCost]
  exact costFold_mono threshold caps _ hccb0
    (fun i => Celt.estBits sp lm toff c i + boost.getD i 0)
    (fun i => Celt.estBits sp lm toff c' i + boost.getD i 0)
    (Celt.bandRev bstart bend) ((0 : Int), false) ((0 : Int), false)
    (fun i hi => hcapsLo i (bandRev_mem hi).2)
    (fun i hi => add_le_add_right (estBits_mono sp lm toff hcc hc10 i) _)
    (fun i hi => add_nonneg (estBits_nonneg _ _ _ _ _)
      (hboost i (bandRev_mem hi).2))
    le_rfl (fun h => h)

/-- Auxiliary: the inner probe total, viewed through the usize cast, is
monotone in the interpolation position. -/
theorem innerT_mono (bstart bend : Nat) (threshold caps b1l b2l : List Int)
    (ccb : Int) (hccb0 : 0 ≤ ccb) (hccb16 : ccb ≤ 16)
    (hbend : bend ≤ MAX_BANDS)
    (hcapsLo : ∀ i < bend, ccb ≤ caps.getD i 0)
    (hcapsHi : ∀ i < bend, caps.getD i 0 ≤ 2 ^ 32)
    (hb1 : ∀ i, bstart ≤ i → i < bend → 0 ≤ b1l.getD i 0)
    (hb2 : ∀ i, bstart ≤ i → i < bend → 0 ≤ b2l.getD i 0) :
    ∀ c c' : Nat, c ≤ c' → c' ≤ 64 →
      i32_as_usize (Celt.allocCost (Celt.bandRev bstart bend) threshold caps
        ccb (fun j => b1l.getD j 0
          + sar ((c : Int) * b2l.getD j 0) ALLOC_STEPS))
      ≤ i32_as_usize (Celt.allocCost (Celt.bandRev bstart bend) threshold caps
        ccb (fun j => b1l.getD j 0
          + sar ((c' : Int) * b2l.getD j 0) ALLOC_STEPS)) := by
  intro c c' hcc hc64
  have hnb : ∀ (x : Nat) (i : Nat), bstart ≤ i → i < bend →
      0 ≤ b1l.getD i 0 + sar ((x : Int) * b2l.getD i 0) ALLOC_STEPS :=
    fun x i hi1 hi2 => add_nonneg (hb1 i hi1 hi2)
      (sar_nonneg (mul_nonneg (Int.natCast_nonneg _) (hb2 i hi1 hi2)) _)
  obtain ⟨hnn, _⟩ := allocCost_bounds bstart bend threshold caps ccb hccb0
    hccb16 (fun j => b1l.getD j 0 + sar ((c : Int) * b2l.getD j 0) ALLOC_STEPS)
    hbend hcapsLo hcapsHi (hnb c)
  obtain ⟨_, hub⟩ := allocCost_bounds bstart bend threshold caps ccb hccb0
    hccb16 (fun j => b1l.getD j 0 + sar ((c' : Int) * b2l.getD j 0) ALLOC_STEPS)
    hbend hcapsLo hcapsHi (hnb c')
  refine i32_as_usize_le hnn ?_ hub
  rw [Celt.allocCost, Celt.allocCost]
  exact costFold_mono threshold caps ccb hccb0
    (fun j => b1l.getD j 0 + sar ((c : Int) * b2l.getD j 0) ALLOC_STEPS)
    (fun j => b1l.getD j 0 + sar ((c' : Int) * b2l.getD j 0) ALLOC_STEPS)
    (Celt.bandRev bstart bend) ((0 : Int), false) ((0 : Int), false)
    (fun i hi => hcapsLo i (bandRev_mem hi).2)
    (fun i hi => add_le_add_left (sar_mono (mul_le_mul_of_nonneg_right
      (by exact_mod_cast hcc) (hb2 i (bandRev_mem hi).1 (bandRev_mem hi).2)) _)
      _)
    (fun i hi => hnb c' i (bandRev_mem hi).1 (bandRev_mem hi).2)
    le_rfl (fun h => h)

/-- C3: For every fixed decoder configuration (band range, `lm`, stereo
flag, caps, thresholds, trim offsets and boosts held fixed), running
the allocation bisection with a larger available budget never produces
a smaller sum of final per-band `pulses[]` over the decoded band range
than with a smaller budget: total allocated pulses is monotone in the
budget.  (The side conditions hold for every real configuration: bands
within the 21-band table, a 21-entry pulse vector, nonnegative boosts,
and caps between the minimal per-band cost `(stereo+1) << 3` and
`2^32`.) -/
theorem claim_C3_alloc_monotone
    {bstart bend : Nat} {stereo_pkt : Bool} {lm : Nat}
    {caps threshold trim_offset boost : List Int} {pulses0 : List Int}
    {skip0 : Nat} {a a' : Nat} {p p' : List Int × Nat}
    (hbend : bend ≤ MAX_BANDS)
    (hplen : pulses0.length = MAX_BANDS)
    (hboost : ∀ i < bend, 0 ≤ boost.getD i 0)
    (hcapsLo : ∀ i < bend,
      (((if stereo_pkt then 1 else 0) + 1) <<< 3 : Int) ≤ caps.getD i 0)
    (hcapsHi : ∀ i < bend, caps.getD i 0 ≤ 2 ^ 32)
    (ha : a ≤ a')
    (h1 : Celt.allocBisect bstart bend stereo_pkt lm caps threshold
      trim_offset boost a pulses0 skip0 = some p)
    (h2 : Celt.allocBisect bstart bend stereo_pkt lm caps threshold
      trim_offset boost a' pulses0 skip0 = some p') :
    ((List.range' bstart (bend - bstart)).map (fun i => p.1.getD i 0)).sum
      ≤ ((List.range' bstart (bend - bstart)).map
        (fun i => p'.1.getD i 0)).sum := by
  rcases Nat.lt_or_ge bstart bend with hbb | hbb
  · have hCV : CELT_VECTOR = 11 := rfl
    have hccb0 : (0 : Int) ≤ ((if stereo_pkt then 1 else 0) + 1) <<< 3 := by
      cases stereo_pkt <;> decide
    have hccb16 : (((if stereo_pkt then 1 else 0) + 1) <<< 3 : Int) ≤ 16 := by
      cases stereo_pkt <;> decide
    simp only [Celt.allocBisect] at h1 h2
    have hg1 := ite_none_ne h1
    have hg2 := ite_none_ne h2
    have hp := Option.some_inj.mp (ite_none_some h1)
    have hp' := Option.some_inj.mp (ite_none_some h2)
    have hTmono := outerT_mono bstart bend stereo_pkt lm threshold caps
      trim_offset boost hbend hboost hcapsLo hcapsHi
    set T := fun c => Celt.allocCost (Celt.bandRev bstart bend) threshold caps
      (((if stereo_pkt then 1 else 0) + 1) <<< 3)
      (fun i => Celt.estBits stereo_pkt lm trim_offset c i + boost.getD i 0)
      with hT
    have hRmono : Celt.outerGo T a 16 1 (CELT_VECTOR - 1)
        ≤ Celt.outerGo T a' 16 1 (CELT_VECTOR - 1) :=
      outerGo_mono_avail T ha hTmono
    obtain ⟨hA1, hA11, hAP1, hAP2⟩ := outerGo_spec T a hTmono 16 1
      (CELT_VECTOR - 1) le_rfl (by decide) (by decide) (by decide)
      (fun c hc1 hc2 => absurd hc2 (by omega))
      (fun c hc1 hc2 => absurd hc1 (by omega))
    obtain ⟨hB1, hB11, hBP1, hBP2⟩ := outerGo_spec T a' hTmono 16 1
      (CELT_VECTOR - 1) le_rfl (by decide) (by decide) (by decide)
      (fun c hc1 hc2 => absurd hc2 (by omega))
      (fun c hc1 hc2 => absurd hc1 (by omega))
    generalize hgA : Celt.outerGo T a 16 1 (CELT_VECTOR - 1) = Ra
      at hg1 hp hRmono hA1
    generalize hgB : Celt.outerGo T a' 16 1 (CELT_VECTOR - 1) = Rb
      at hg2 hp' hRmono hB1
    have hRa10 : Ra ≤ 10 := by
      by_contra hcon
      exact hg1 ⟨hbb, by omega⟩
    have hRb10 : Rb ≤ 10 := by
      by_contra hcon
      exact hg2 ⟨hbb, by omega⟩
    have hchA := fun (j : Nat) (hj1 : bstart ≤ j) (hj2 : j < bend) =>
      bits12Loop_getD stereo_pkt lm trim_offset boost (Ra - 1) Ra bend hbend
        bend bstart (List.replicate MAX_BANDS 0) (List.replicate MAX_BANDS 0)
        skip0 (by omega) (by simp) (by simp) j hj1 hj2
    have hchB := fun (j : Nat) (hj1 : bstart ≤ j) (hj2 : j < bend) =>
      bits12Loop_getD stereo_pkt lm trim_offset boost (Rb - 1) Rb bend hbend
        bend bstart (List.replicate MAX_BANDS 0) (List.replicate MAX_BANDS 0)
        skip0 (by omega) (by simp) (by simp) j hj1 hj2
    have hb1A : ∀ i, bstart ≤ i → i < bend →
        0 ≤ (Celt.bits12Loop stereo_pkt lm trim_offset boost (Ra - 1) Ra bend
          bend bstart (List.replicate MAX_BANDS 0) (List.replicate MAX_BANDS 0)
          skip0).1.getD i 0 := by
      intro i hi1 hi2
      rw [(hchA i hi1 hi2).1]
      split
      · exact add_nonneg (estBits_nonneg _ _ _ _ _) (hboost i hi2)
      · exact estBits_nonneg _ _ _ _ _
    have hb2A : ∀ i, bstart ≤ i → i < bend →
        0 ≤ (Celt.bits12Loop stereo_pkt lm trim_offset boost (Ra - 1) Ra bend
          bend bstart (List.replicate MAX_BANDS 0) (List.replicate MAX_BANDS 0)
          skip0).2.1.getD i 0 := by
      intro i hi1 hi2
      rw [(hchA i hi1 hi2).2]
      exact le_max_right _ 0
    obtain ⟨hIa1, hIa2, _, _⟩ := innerGo_spec (fun c => Celt.allocCost
        (Celt.bandRev bstart bend) threshold caps
        (((if stereo_pkt then 1 else 0) + 1) <<< 3)
        (fun j => (Celt.bits12Loop stereo_pkt lm trim_offset boost (Ra - 1) Ra
            bend bend bstart (List.replicate MAX_BANDS 0)
            (List.replicate MAX_BANDS 0) skip0).1.getD j 0
          + sar ((c : Int) * (Celt.bits12Loop stereo_pkt lm trim_offset boost
            (Ra - 1) Ra bend bend bstart (List.replicate MAX_BANDS 0)
            (List.replicate MAX_BANDS 0) skip0).2.1.getD j 0) ALLOC_STEPS))
      a ALLOC_STEPS (0, 1 <<< ALLOC_STEPS) (by decide) (by decide)
      (Or.inl rfl) (Or.inl (by decide))
    have hι63 : (Celt.innerGo (fun c => Celt.allocCost
        (Celt.bandRev bstart bend) threshold caps
        (((if stereo_pkt then 1 else 0) + 1) <<< 3)
        (fun j => (Celt.bits12Loop stereo_pkt lm trim_offset boost (Ra - 1) Ra
            bend bend bstart (List.replicate MAX_BANDS 0)
            (List.replicate MAX_BANDS 0) skip0).1.getD j 0
          + sar ((c : Int) * (Celt.bits12Loop stereo_pkt lm trim_offset boost
            (Ra - 1) Ra bend bend bstart (List.replicate MAX_BANDS 0)
            (List.replicate MAX_BANDS 0) skip0).2.1.getD j 0) ALLOC_STEPS))
      a ALLOC_STEPS (0, 1 <<< ALLOC_STEPS)).1 ≤ 63 := by omega
    have hιmono : Ra = Rb →
        (Celt.innerGo (fun c => Celt.allocCost
          (Celt.bandRev bstart bend) threshold caps
          (((if stereo_pkt then 1 else 0) + 1) <<< 3)
          (fun j => (Celt.bits12Loop stereo_pkt lm trim_offset boost (Ra - 1)
              Ra bend bend bstart (List.replicate MAX_BANDS 0)
              (List.replicate MAX_BANDS 0) skip0).1.getD j 0
            + sar ((c : Int) * (Celt.bits12Loop stereo_pkt lm trim_offset boost
              (Ra - 1) Ra bend bend bstart (List.replicate MAX_BANDS 0)
              (List.replicate MAX_BANDS 0) skip0).2.1.getD j 0) ALLOC_STEPS))
          a ALLOC_STEPS (0, 1 <<< ALLOC_STEPS)).1
        ≤ (Celt.innerGo (fun c => Celt.allocCost
          (Celt.bandRev bstart bend) threshold caps
          (((if stereo_pkt then 1 else 0) + 1) <<< 3)
          (fun j => (Celt.bits12Loop stereo_pkt lm trim_offset boost (Rb - 1)
              Rb bend bend bstart (List.replicate MAX_BANDS 0)
              (List.replicate MAX_BANDS 0) skip0).1.getD j 0
            + sar ((c : Int) * (Celt.bits12Loop stereo_pkt lm trim_offset boost
              (Rb - 1) Rb bend bend bstart (List.replicate MAX_BANDS 0)
              (List.replicate MAX_BANDS 0) skip0).2.1.getD j 0) ALLOC_STEPS))
          a' ALLOC_STEPS (0, 1 <<< ALLOC_STEPS)).1 := by
      intro heq
      subst heq
      exact innerGo_mono_avail _ ha (innerT_mono bstart bend threshold caps _ _
        _ hccb0 hccb16 hbend hcapsLo hcapsHi hb1A hb2A)
    rw [← hp, ← hp']
    refine assign_sum_mono bstart bend threshold caps _ hccb0 _ _ _ _ _ _
      pulses0 hbend hplen hcapsLo ?_ ?_
    · intro j hj1 hj2
      rw [(hchA j hj1 hj2).1, (hchA j hj1 hj2).2, (hchB j hj1 hj2).1,
        (hchB j hj1 hj2).2]
      exact bits_pointwise_mono stereo_pkt lm trim_offset (hboost j hj2)
        hA1 hRb10 hRmono hι63 hιmono j
    · intro j hj1 hj2
      rw [(hchB j hj1 hj2).1, (hchB j hj1 hj2).2]
      exact bits_pointwise_nonneg stereo_pkt lm trim_offset (hboost j hj2)
        Rb _ j
  · have h0 : bend - bstart = 0 := by omega
    rw [h0]
    simp

/-- Witness for C3 at a concrete mono configuration: bands `[0, 3)`,
`lm = 0`, the real caps table, unit thresholds, zero trims and boosts,
budgets 50 and 100 eighth-bits. -/
theorem claim_C3_alloc_monotone_witness :
    ((List.range' 0 (3 - 0)).map (fun i =>
      ((Celt.allocBisect 0 3 false 0 (Celt.capsList 0 false)
        (List.replicate MAX_BANDS 1) (List.replicate MAX_BANDS 0)
        (List.replicate MAX_BANDS 0) 50 (List.replicate MAX_BANDS 0) 0).get
        (by decide)).1.getD i 0)).sum
    ≤ ((List.range' 0 (3 - 0)).map (fun i =>
      ((Celt.allocBisect 0 3 false 0 (Celt.capsList 0 false)
        (List.replicate MAX_BANDS 1) (List.replicate MAX_BANDS 0)
        (List.replicate MAX_BANDS 0) 100 (List.replicate MAX_BANDS 0) 0).get
        (by decide)).1.getD i 0)).sum :=
  claim_C3_alloc_monotone (by decide) (by decide) (by decide) (by decide)
    (by decide) (by decide) (Option.some_get (by decide)).symm
    (Option.some_get (by decide)).symm

end Opus
